import Mathlib

/-!
Verification of the HTML-to-Markdown converter (`clean.py`).

Text is modelled as `List Char` (`Str`).  The Python regex-based text
passes of `normalize_whitespace`, `remove_feedback_patterns` and
`remove_empty_sections` are translated into structurally recursive
functions, and the mutable BeautifulSoup document tree into a pure
inductive `Node` type, with each in-place pass becoming a tree-to-tree
function.  Character classes follow Python's `re` on ASCII input
(`\s` = space, tab, CR, LF, VT, FF).
-/

set_option maxHeartbeats 1000000
set_option maxRecDepth 10000

abbrev Str := List Char

/-- Coerce a Lean string literal to the `List Char` representation. -/
def str (s : String) : Str := s.data

/-- Python `\s` minus newline, restricted to ASCII: the characters matched by
the regex class used in `normalize_whitespace`'s first substitution
(`[^\S\n]+`). -/
def isBlank (c : Char) : Bool :=
  c == ' ' || c == '\t' || c == '\r' || c == '\x0b' || c == '\x0c'

/-- Python `\s` restricted to ASCII (`str.strip`'s character set). -/
def isPyWs (c : Char) : Bool := isBlank c || c == '\n'

/-- `re.sub(r'[^\S\n]+', ' ', text)`: every maximal run of non-newline
whitespace becomes a single ASCII space. -/
def collapseBlanks : Str → Str
  | [] => []
  | [c] => if isBlank c then [' '] else [c]
  | c :: d :: cs =>
    if isBlank c then
      if isBlank d then collapseBlanks (d :: cs)
      else ' ' :: collapseBlanks (d :: cs)
    else c :: collapseBlanks (d :: cs)

/-- `re.sub(r'\n{3,}', '\n\n', text)`: every maximal run of three or more
newlines becomes exactly two. -/
def collapseNewlines : Str → Str
  | a :: b :: c :: cs =>
    if a == '\n' && b == '\n' && c == '\n' then collapseNewlines (b :: c :: cs)
    else a :: collapseNewlines (b :: c :: cs)
  | l => l

/-- Does the list consist of zero or more spaces followed by a newline?
Used to decide whether a run of spaces is right-adjacent to a newline. -/
def leadsToNL : Str → Bool
  | [] => false
  | c :: cs => if c == ' ' then leadsToNL cs else c == '\n'

/-- `re.sub(r' *\n *', '\n', text)`: a maximal run of spaces that touches a
newline on its left or on its right is deleted.  `prevNL` records whether the
previously emitted character was a newline. -/
def stripSpacesNL (prevNL : Bool) : Str → Str
  | [] => []
  | c :: cs =>
    if c == '\n' then '\n' :: stripSpacesNL true cs
    else if c == ' ' && (prevNL || leadsToNL cs) then stripSpacesNL prevNL cs
    else c :: stripSpacesNL false cs

/-- Remove trailing Python whitespace (the right half of `str.strip()`). -/
def dropTrailingWs : Str → Str
  | [] => []
  | c :: cs =>
    match dropTrailingWs cs with
    | [] => if isPyWs c then [] else [c]
    | r => c :: r

/-- Python `str.strip()`. -/
def pyStripL (l : Str) : Str := dropTrailingWs (l.dropWhile isPyWs)

/-- `normalize_whitespace` from `clean.py`: the four substitutions in their
source order. -/
def normalizeWhitespace (t : Str) : Str :=
  pyStripL (stripSpacesNL false (collapseNewlines (collapseBlanks t)))

/-! ### Invariants of normalized text -/

/-- Every non-newline whitespace character is a plain space. -/
def spacesOnly (l : Str) : Bool := l.all (fun c => !isBlank c || c == ' ')

/-- No two adjacent non-newline whitespace characters. -/
def noDoubleBlank : Str → Bool
  | c :: d :: cs => (!(isBlank c && isBlank d)) && noDoubleBlank (d :: cs)
  | _ => true

/-- No space character adjacent to a newline (in either order). -/
def noSpaceNL : Str → Bool
  | c :: d :: cs =>
    (!((c == ' ' && d == '\n') || (c == '\n' && d == ' '))) && noSpaceNL (d :: cs)
  | _ => true

/-- No three consecutive newlines. -/
def noTripleNL : Str → Bool
  | a :: b :: c :: cs =>
    (!(a == '\n' && b == '\n' && c == '\n')) && noTripleNL (b :: c :: cs)
  | _ => true

/-- The first character, if any, is not Python whitespace. -/
def headOk (l : Str) : Bool :=
  match l.head? with
  | none => true
  | some c => !isPyWs c

/-- The last character, if any, is not Python whitespace. -/
def lastOk (l : Str) : Bool :=
  match l.getLast? with
  | none => true
  | some c => !isPyWs c

example : normalizeWhitespace (str "a\n \n \nb") = str "a\n\n\nb" := by decide
example : normalizeWhitespace (str "a\n\n\nb") = str "a\n\nb" := by decide

/-! ### Closure lemmas for the pair predicates -/

theorem noDoubleBlank_tail {c : Char} {l : Str} (h : noDoubleBlank (c :: l) = true) :
    noDoubleBlank l = true := by
  cases l with
  | nil => rfl
  | cons d cs => rw [noDoubleBlank] at h; exact (Bool.and_eq_true .. |>.mp h).2

theorem noSpaceNL_tail {c : Char} {l : Str} (h : noSpaceNL (c :: l) = true) :
    noSpaceNL l = true := by
  cases l with
  | nil => rfl
  | cons d cs => rw [noSpaceNL] at h; exact (Bool.and_eq_true .. |>.mp h).2

theorem noTripleNL_tail {c : Char} {l : Str} (h : noTripleNL (c :: l) = true) :
    noTripleNL l = true := by
  cases l with
  | nil => rfl
  | cons d cs =>
    cases cs with
    | nil => rfl
    | cons e es => rw [noTripleNL] at h; exact (Bool.and_eq_true .. |>.mp h).2


/-! ### The first substitution establishes single-space runs -/

theorem collapseBlanks_head : ∀ (c : Char) (cs : Str),
    ∃ d ds, collapseBlanks (c :: cs) = d :: ds ∧ isBlank d = isBlank c ∧
      (isBlank c = true → d = ' ')
  | c, [] => by
    cases h : isBlank c
    · exact ⟨c, [], by simp [collapseBlanks, h], h, by simp⟩
    · exact ⟨' ', [], by simp [collapseBlanks, h], by decide, fun _ => rfl⟩
  | c, d :: ds => by
    obtain ⟨e, es, heq, hbe, hsp⟩ := collapseBlanks_head d ds
    cases hc : isBlank c
    · exact ⟨c, collapseBlanks (d :: ds), by rw [collapseBlanks, if_neg (by simp [hc])],
        hc, by simp⟩
    · cases hd : isBlank d
      · exact ⟨' ', collapseBlanks (d :: ds),
          by rw [collapseBlanks, if_pos hc, if_neg (by simp [hd])],
          by decide, fun _ => rfl⟩
      · exact ⟨e, es, by rw [collapseBlanks, if_pos hc, if_pos hd, heq],
          by rw [hbe]; exact hd, fun _ => hsp hd⟩

theorem collapseBlanks_props : ∀ l : Str,
    spacesOnly (collapseBlanks l) = true ∧ noDoubleBlank (collapseBlanks l) = true
  | [] => ⟨rfl, rfl⟩
  | [c] => by
    cases h : isBlank c
    · simp [collapseBlanks, h, spacesOnly, noDoubleBlank]
    · simp [collapseBlanks, h, spacesOnly, noDoubleBlank]
  | c :: d :: cs => by
    obtain ⟨hall, hdbl⟩ := collapseBlanks_props (d :: cs)
    obtain ⟨e, es, heq, hbe, _⟩ := collapseBlanks_head d cs
    cases hc : isBlank c
    · rw [collapseBlanks, if_neg (by simp [hc])]
      refine ⟨?_, ?_⟩
      · simp only [spacesOnly, List.all_cons, hc]
        simp only [spacesOnly] at hall
        simp [hall]
      · rw [heq, noDoubleBlank, hc]
        rw [heq] at hdbl
        simp [hdbl]
    · cases hd : isBlank d
      · rw [collapseBlanks, if_pos hc, if_neg (by simp [hd])]
        refine ⟨?_, ?_⟩
        · simp only [spacesOnly, List.all_cons]
          simp only [spacesOnly] at hall
          simp [hall]
        · rw [heq, noDoubleBlank]
          have he : isBlank e = false := by rw [hbe, hd]
          rw [heq] at hdbl
          simp [he, hdbl]
      · rw [collapseBlanks, if_pos hc, if_pos hd]
        exact ⟨hall, hdbl⟩

/-! ### The newline-collapsing substitution -/

theorem collapseNewlines_head : ∀ (c : Char) (cs : Str),
    ∃ ds, collapseNewlines (c :: cs) = c :: ds
  | _, [] => ⟨[], rfl⟩
  | _, [_] => ⟨_, rfl⟩
  | a, b :: c :: cs => by
    obtain ⟨ds, hds⟩ := collapseNewlines_head b (c :: cs)
    cases h : (a == '\n' && b == '\n' && c == '\n')
    · exact ⟨collapseNewlines (b :: c :: cs), by rw [collapseNewlines, if_neg (by simp [h])]⟩
    · have ha : a = '\n' := by
        have := (Bool.and_eq_true .. |>.mp (Bool.and_eq_true .. |>.mp h).1).1
        exact eq_of_beq this
      have hb : b = '\n' := by
        have := (Bool.and_eq_true .. |>.mp (Bool.and_eq_true .. |>.mp h).1).2
        exact eq_of_beq this
      refine ⟨ds, ?_⟩
      rw [collapseNewlines, if_pos h, hds, ha, hb]

theorem collapseNewlines_head2 : ∀ (b c : Char) (cs : Str), c ≠ '\n' →
    ∃ es, collapseNewlines (b :: c :: cs) = b :: c :: es
  | _, _, [], _ => ⟨[], rfl⟩
  | b, c, f :: fs, hc => by
    obtain ⟨ds, hds⟩ := collapseNewlines_head c (f :: fs)
    have h : (b == '\n' && c == '\n' && f == '\n') = false := by
      simp [beq_iff_eq, hc]
    exact ⟨ds, by rw [collapseNewlines, if_neg (by simp [h]), hds]⟩

theorem collapseNewlines_noDouble : ∀ l : Str, noDoubleBlank l = true →
    noDoubleBlank (collapseNewlines l) = true
  | [], _ => rfl
  | [_], _ => rfl
  | [a, b], h => h
  | a :: b :: c :: cs, h => by
    have ih := collapseNewlines_noDouble (b :: c :: cs) (noDoubleBlank_tail h)
    cases hcond : (a == '\n' && b == '\n' && c == '\n')
    · obtain ⟨ds, hds⟩ := collapseNewlines_head b (c :: cs)
      rw [collapseNewlines, if_neg (by simp [hcond]), hds, noDoubleBlank]
      rw [hds] at ih
      rw [noDoubleBlank] at h
      have hpair := (Bool.and_eq_true .. |>.mp h).1
      simp [ih]
      simpa using hpair
    · rw [collapseNewlines, if_pos hcond]; exact ih

theorem collapseNewlines_noSpace : ∀ l : Str, noSpaceNL l = true →
    noSpaceNL (collapseNewlines l) = true
  | [], _ => rfl
  | [_], _ => rfl
  | [a, b], h => h
  | a :: b :: c :: cs, h => by
    have ih := collapseNewlines_noSpace (b :: c :: cs) (noSpaceNL_tail h)
    cases hcond : (a == '\n' && b == '\n' && c == '\n')
    · obtain ⟨ds, hds⟩ := collapseNewlines_head b (c :: cs)
      rw [collapseNewlines, if_neg (by simp [hcond]), hds, noSpaceNL]
      rw [hds] at ih
      rw [noSpaceNL] at h
      have hpair := (Bool.and_eq_true .. |>.mp h).1
      simp [ih]
      simp at hpair
      exact hpair
    · rw [collapseNewlines, if_pos hcond]; exact ih

theorem collapseNewlines_spacesOnly : ∀ l : Str, spacesOnly l = true →
    spacesOnly (collapseNewlines l) = true
  | [], _ => rfl
  | [_], h => h
  | [a, b], h => h
  | a :: b :: c :: cs, h => by
    have htail : spacesOnly (b :: c :: cs) = true := by
      simp only [spacesOnly, List.all_cons, Bool.and_eq_true] at h ⊢
      exact ⟨h.2.1, h.2.2⟩
    have ih := collapseNewlines_spacesOnly (b :: c :: cs) htail
    cases hcond : (a == '\n' && b == '\n' && c == '\n')
    · rw [collapseNewlines, if_neg (by simp [hcond])]
      simp only [spacesOnly, List.all_cons, Bool.and_eq_true] at h ⊢
      exact ⟨h.1, ih⟩
    · rw [collapseNewlines, if_pos hcond]; exact ih

theorem collapseNewlines_noTriple : ∀ l : Str, noTripleNL (collapseNewlines l) = true
  | [] => rfl
  | [_] => rfl
  | [_, _] => rfl
  | a :: b :: c :: cs => by
    have ih := collapseNewlines_noTriple (b :: c :: cs)
    cases hcond : (a == '\n' && b == '\n' && c == '\n')
    · rw [collapseNewlines, if_neg (by simp [hcond])]
      cases ha : (a == '\n')
      · obtain ⟨ds, hds⟩ := collapseNewlines_head b (c :: cs)
        rw [hds]
        rw [hds] at ih
        cases ds with
        | nil => rfl
        | cons e es =>
          rw [noTripleNL, ha]
          simpa using ih
      · cases hb : (b == '\n')
        · obtain ⟨ds, hds⟩ := collapseNewlines_head b (c :: cs)
          rw [hds]
          rw [hds] at ih
          cases ds with
          | nil => rfl
          | cons e es =>
            rw [noTripleNL, ha, hb]
            simpa using ih
        · have hcn : c ≠ '\n' := by
            intro hcc
            rw [hcc] at hcond
            simp [ha, hb] at hcond
          obtain ⟨es, hes⟩ := collapseNewlines_head2 b c cs hcn
          rw [hes]
          rw [hes] at ih
          rw [noTripleNL]
          have hcf : (c == '\n') = false := by simp [hcn]
          rw [ha, hb, hcf]
          simpa using ih
    · rw [collapseNewlines, if_pos hcond]; exact ih

theorem collapseNewlines_headOk (l : Str) (h : headOk l = true) :
    headOk (collapseNewlines l) = true := by
  cases l with
  | nil => rfl
  | cons c cs =>
    obtain ⟨ds, hds⟩ := collapseNewlines_head c cs
    rw [hds]
    rw [headOk] at h ⊢
    simpa using by simpa using h

theorem collapseNewlines_lastOk : ∀ l : Str, lastOk l = true →
    lastOk (collapseNewlines l) = true
  | [], _ => rfl
  | [_], h => h
  | [_, _], h => h
  | a :: b :: c :: cs, h => by
    have htail : lastOk (b :: c :: cs) = true := by
      rw [lastOk] at h ⊢
      rw [List.getLast?_cons_cons] at h
      exact h
    have ih := collapseNewlines_lastOk (b :: c :: cs) htail
    cases hcond : (a == '\n' && b == '\n' && c == '\n')
    · obtain ⟨ds, hds⟩ := collapseNewlines_head b (c :: cs)
      rw [collapseNewlines, if_neg (by simp [hcond]), hds]
      rw [hds] at ih
      rw [lastOk] at ih ⊢
      rw [List.getLast?_cons_cons]
      exact ih
    · rw [collapseNewlines, if_pos hcond]; exact ih

theorem collapseNewlines_id : ∀ l : Str, noTripleNL l = true → collapseNewlines l = l
  | [], _ => rfl
  | [_], _ => rfl
  | [_, _], _ => rfl
  | a :: b :: c :: cs, h => by
    rw [noTripleNL] at h
    obtain ⟨h1, h2⟩ := Bool.and_eq_true .. |>.mp h
    rw [collapseNewlines, if_neg (by simp at h1 ⊢; tauto)]
    rw [collapseNewlines_id (b :: c :: cs) h2]

/-! ### The space-around-newline substitution -/

theorem stripSpacesNL_head_true : ∀ cs : Str,
    (stripSpacesNL true cs).head? ≠ some ' '
  | [] => by simp [stripSpacesNL]
  | c :: cs => by
    cases hc : (c == '\n')
    · cases hsp : (c == ' ')
      · rw [stripSpacesNL, if_neg (by simp [hc]), if_neg (by simp [hsp])]
        simp only [List.head?_cons]
        intro hcon
        exact absurd (by injection hcon) (by simpa using hsp)
      · rw [stripSpacesNL, if_neg (by simp [hc]), if_pos (by simp [hsp])]
        exact stripSpacesNL_head_true cs
    · rw [stripSpacesNL, if_pos hc]
      simp

theorem stripSpacesNL_head_noNL : ∀ cs : Str, leadsToNL cs = false →
    (stripSpacesNL false cs).head? ≠ some '\n'
  | [], _ => by simp [stripSpacesNL]
  | c :: cs, h => by
    cases hsp : (c == ' ')
    · have hc : (c == '\n') = false := by
        rw [leadsToNL, if_neg (by simp [hsp])] at h
        exact h
      rw [stripSpacesNL, if_neg (by simp [hc]), if_neg (by simp [hsp])]
      simp only [List.head?_cons]
      intro hcon
      exact absurd (by injection hcon) (by simpa using hc)
    · have hlt : leadsToNL cs = false := by
        rw [leadsToNL, if_pos hsp] at h
        exact h
      have hc : (c == '\n') = false := by
        simp at hsp ⊢
        intro hcc
        rw [hcc] at hsp
        simp at hsp
      cases hb : (false || leadsToNL cs)
      · rw [stripSpacesNL, if_neg (by simp [hc]), if_neg (by simp [hb])]
        simp only [List.head?_cons]
        intro hcon
        have := (by injection hcon : c = '\n')
        exact absurd this (by simpa using hc)
      · simp [hlt] at hb

theorem stripSpacesNL_noSpace : ∀ (b : Bool) (l : Str),
    noSpaceNL (stripSpacesNL b l) = true
  | _, [] => rfl
  | b, c :: cs => by
    cases hc : (c == '\n')
    · cases hcond : (c == ' ' && (b || leadsToNL cs))
      · rw [stripSpacesNL, if_neg (by simp [hc]), if_neg (by simp [hcond])]
        have ih := stripSpacesNL_noSpace false cs
        cases hR : stripSpacesNL false cs with
        | nil => rfl
        | cons e es =>
          rw [hR] at ih
          rw [noSpaceNL]
          refine (Bool.and_eq_true ..).mpr ⟨?_, ih⟩
          cases hsp : (c == ' ')
          · have hcn : (c == '\n') = false := hc
            simp [hsp, hcn]
          · have hlt : leadsToNL cs = false := by
              cases hb2 : (b || leadsToNL cs)
              · simpa using (Bool.or_eq_false_iff.mp hb2).2
              · simp [hsp, hb2] at hcond
            have := stripSpacesNL_head_noNL cs hlt
            rw [hR] at this
            simp only [List.head?_cons] at this
            have hen : ¬(e = '\n') := fun hee => this (by rw [hee])
            simp [hc, hen]
      · rw [stripSpacesNL, if_neg (by simp [hc]), if_pos (by simp [hcond])]
        exact stripSpacesNL_noSpace b cs
    · rw [stripSpacesNL, if_pos hc]
      have ih := stripSpacesNL_noSpace true cs
      cases hR : stripSpacesNL true cs with
      | nil => rfl
      | cons e es =>
        rw [hR] at ih
        rw [noSpaceNL]
        refine (Bool.and_eq_true ..).mpr ⟨?_, ih⟩
        have := stripSpacesNL_head_true cs
        rw [hR] at this
        simp only [List.head?_cons] at this
        have hes : ¬(e = ' ') := fun hee => this (by rw [hee])
        simp [hes]

theorem noSpaceNL_space_leadsToNL : ∀ cs : Str,
    noSpaceNL (' ' :: cs) = true → leadsToNL cs = false
  | [], _ => rfl
  | d :: ds, h => by
    rw [noSpaceNL] at h
    obtain ⟨h1, h2⟩ := Bool.and_eq_true .. |>.mp h
    have hdn : ¬(d = '\n') := by
      simp at h1
      intro hdd
      rw [hdd] at h1
      simp at h1
    cases hd : (d == ' ')
    · rw [leadsToNL, if_neg (by simp [hd])]
      simpa using hdn
    · rw [leadsToNL, if_pos hd]
      have hde : d = ' ' := by simpa using hd
      rw [hde] at h2
      exact noSpaceNL_space_leadsToNL ds h2

theorem stripSpacesNL_id : ∀ (b : Bool) (l : Str), noSpaceNL l = true →
    (b = true → l.head? ≠ some ' ') → stripSpacesNL b l = l
  | _, [], _, _ => rfl
  | b, c :: cs, h, hb => by
    cases hc : (c == '\n')
    · cases hsp : (c == ' ')
      · rw [stripSpacesNL, if_neg (by simp [hc]), if_neg (by simp [hsp])]
        rw [stripSpacesNL_id false cs (noSpaceNL_tail h) (by simp)]
      · have hce : c = ' ' := by simpa using hsp
        cases b with
        | true =>
          exact absurd (by rw [hce]; rfl) (hb rfl)
        | false =>
          have hlt : leadsToNL cs = false := by
            apply noSpaceNL_space_leadsToNL cs
            rw [hce] at h
            exact h
          rw [stripSpacesNL, if_neg (by simp [hc]), if_neg (by simp [hlt])]
          rw [stripSpacesNL_id false cs (noSpaceNL_tail h) (by simp)]
    · rw [stripSpacesNL, if_pos hc]
      have hce : c = '\n' := by simpa using hc
      have hhd : cs.head? ≠ some ' ' := by
        cases cs with
        | nil => simp
        | cons d ds =>
          rw [hce, noSpaceNL] at h
          obtain ⟨h1, _⟩ := Bool.and_eq_true .. |>.mp h
          simp at h1
          simp only [List.head?_cons]
          intro hcon
          have : d = ' ' := by injection hcon
          rw [this] at h1
          simp at h1
      rw [stripSpacesNL_id true cs (noSpaceNL_tail h) (fun _ => hhd), hce]

theorem stripSpacesNL_spacesOnly : ∀ (b : Bool) (l : Str), spacesOnly l = true →
    spacesOnly (stripSpacesNL b l) = true
  | _, [], _ => rfl
  | b, c :: cs, h => by
    have hc1 : (!isBlank c || c == ' ') = true := by
      simp only [spacesOnly, List.all_cons, Bool.and_eq_true] at h
      exact h.1
    have htail : spacesOnly cs = true := by
      simp only [spacesOnly, List.all_cons, Bool.and_eq_true] at h
      exact h.2
    cases hc : (c == '\n')
    · cases hcond : (c == ' ' && (b || leadsToNL cs))
      · rw [stripSpacesNL, if_neg (by simp [hc]), if_neg (by simp [hcond])]
        simp only [spacesOnly, List.all_cons, Bool.and_eq_true]
        exact ⟨hc1, stripSpacesNL_spacesOnly false cs htail⟩
      · rw [stripSpacesNL, if_neg (by simp [hc]), if_pos (by simp [hcond])]
        exact stripSpacesNL_spacesOnly b cs htail
    · rw [stripSpacesNL, if_pos hc]
      simp only [spacesOnly, List.all_cons, Bool.and_eq_true]
      refine ⟨by decide, stripSpacesNL_spacesOnly true cs htail⟩

theorem stripSpacesNL_head_blank : ∀ (b : Bool) (l : Str) (e : Char),
    (stripSpacesNL b l).head? = some e → isBlank e = true →
    ∃ d ds, l = d :: ds ∧ isBlank d = true
  | _, [], e, h, _ => by simp [stripSpacesNL] at h
  | b, c :: cs, e, h, hbl => by
    cases hc : (c == '\n')
    · cases hcond : (c == ' ' && (b || leadsToNL cs))
      · rw [stripSpacesNL, if_neg (by simp [hc]), if_neg (by simp [hcond])] at h
        simp only [List.head?_cons] at h
        have : c = e := by injection h
        exact ⟨c, cs, rfl, by rw [this]; exact hbl⟩
      · have hce : c = ' ' := by
          have := (Bool.and_eq_true .. |>.mp hcond).1
          simpa using this
        exact ⟨c, cs, rfl, by rw [hce]; decide⟩
    · rw [stripSpacesNL, if_pos hc] at h
      simp only [List.head?_cons] at h
      have he : e = '\n' := by injection h with h'; rw [h']
      rw [he] at hbl
      simp [isBlank] at hbl

theorem stripSpacesNL_noDouble : ∀ (b : Bool) (l : Str), noDoubleBlank l = true →
    noDoubleBlank (stripSpacesNL b l) = true
  | _, [], _ => rfl
  | b, c :: cs, h => by
    cases hc : (c == '\n')
    · cases hcond : (c == ' ' && (b || leadsToNL cs))
      · rw [stripSpacesNL, if_neg (by simp [hc]), if_neg (by simp [hcond])]
        have ih := stripSpacesNL_noDouble false cs (noDoubleBlank_tail h)
        cases hR : stripSpacesNL false cs with
        | nil => rfl
        | cons e es =>
          rw [hR] at ih
          rw [noDoubleBlank]
          refine (Bool.and_eq_true ..).mpr ⟨?_, ih⟩
          cases hbc : isBlank c
          · simp [hbc]
          · cases hbe : isBlank e
            · simp [hbc, hbe]
            · obtain ⟨d, ds, hds, hdb⟩ :=
                stripSpacesNL_head_blank false cs e (by rw [hR]; rfl) hbe
              rw [hds, noDoubleBlank] at h
              have := (Bool.and_eq_true .. |>.mp h).1
              rw [hbc, hdb] at this
              simp at this
      · rw [stripSpacesNL, if_neg (by simp [hc]), if_pos (by simp [hcond])]
        exact stripSpacesNL_noDouble b cs (noDoubleBlank_tail h)
    · rw [stripSpacesNL, if_pos hc]
      have ih := stripSpacesNL_noDouble true cs (noDoubleBlank_tail h)
      cases hR : stripSpacesNL true cs with
      | nil => rfl
      | cons e es =>
        rw [hR] at ih
        rw [noDoubleBlank]
        refine (Bool.and_eq_true ..).mpr ⟨?_, ih⟩
        simp [isBlank]

/-! ### Stripping: suffix and prefix closure of the invariants -/

theorem noDoubleBlank_dropWhile (p : Char → Bool) :
    ∀ l : Str, noDoubleBlank l = true → noDoubleBlank (l.dropWhile p) = true
  | [], _ => rfl
  | c :: cs, h => by
    rw [List.dropWhile_cons]
    cases hp : p c
    · simp only [hp, Bool.false_eq_true, if_false]
      exact h
    · simp only [hp, if_true]
      exact noDoubleBlank_dropWhile p cs (noDoubleBlank_tail h)

theorem noSpaceNL_dropWhile (p : Char → Bool) :
    ∀ l : Str, noSpaceNL l = true → noSpaceNL (l.dropWhile p) = true
  | [], _ => rfl
  | c :: cs, h => by
    rw [List.dropWhile_cons]
    cases hp : p c
    · simp only [hp, Bool.false_eq_true, if_false]
      exact h
    · simp only [hp, if_true]
      exact noSpaceNL_dropWhile p cs (noSpaceNL_tail h)

theorem spacesOnly_dropWhile (p : Char → Bool) :
    ∀ l : Str, spacesOnly l = true → spacesOnly (l.dropWhile p) = true
  | [], _ => rfl
  | c :: cs, h => by
    have htail : spacesOnly cs = true := by
      simp only [spacesOnly, List.all_cons, Bool.and_eq_true] at h
      exact h.2
    rw [List.dropWhile_cons]
    cases hp : p c
    · simp only [hp, Bool.false_eq_true, if_false]
      exact h
    · simp only [hp, if_true]
      exact spacesOnly_dropWhile p cs htail

theorem dropTrailingWs_decomp : ∀ l : Str, ∃ t, l = dropTrailingWs l ++ t
  | [] => ⟨[], rfl⟩
  | c :: cs => by
    obtain ⟨t, ht⟩ := dropTrailingWs_decomp cs
    cases hr : dropTrailingWs cs with
    | nil =>
      rw [dropTrailingWs, hr]
      cases hw : isPyWs c
      · exact ⟨cs, by simp⟩
      · exact ⟨c :: cs, by simp⟩
    | cons e es =>
      rw [dropTrailingWs, hr]
      refine ⟨t, ?_⟩
      rw [hr] at ht
      simpa using ht

theorem noDoubleBlank_append_left : ∀ (p t : Str), noDoubleBlank (p ++ t) = true →
    noDoubleBlank p = true
  | [], _, _ => rfl
  | [_], _, _ => rfl
  | c :: d :: p', t, h => by
    rw [List.cons_append, List.cons_append] at h
    rw [noDoubleBlank] at h ⊢
    obtain ⟨h1, h2⟩ := Bool.and_eq_true .. |>.mp h
    refine (Bool.and_eq_true ..).mpr ⟨h1, ?_⟩
    exact noDoubleBlank_append_left (d :: p') t (by rw [List.cons_append]; exact h2)

theorem noSpaceNL_append_left : ∀ (p t : Str), noSpaceNL (p ++ t) = true →
    noSpaceNL p = true
  | [], _, _ => rfl
  | [_], _, _ => rfl
  | c :: d :: p', t, h => by
    rw [List.cons_append, List.cons_append] at h
    rw [noSpaceNL] at h ⊢
    obtain ⟨h1, h2⟩ := Bool.and_eq_true .. |>.mp h
    refine (Bool.and_eq_true ..).mpr ⟨h1, ?_⟩
    exact noSpaceNL_append_left (d :: p') t (by rw [List.cons_append]; exact h2)

theorem spacesOnly_append_left (p t : Str) (h : spacesOnly (p ++ t) = true) :
    spacesOnly p = true := by
  simp only [spacesOnly, List.all_append, Bool.and_eq_true] at h
  exact h.1

theorem dropWhile_headOk (l : Str) : headOk (l.dropWhile isPyWs) = true := by
  induction l with
  | nil => rfl
  | cons c cs ih =>
    rw [List.dropWhile_cons]
    cases hp : isPyWs c
    · simp only [hp, Bool.false_eq_true, if_false, headOk, List.head?_cons]
      simp [hp]
    · simp only [hp, if_true]
      exact ih

theorem dropTrailingWs_lastOk : ∀ l : Str, lastOk (dropTrailingWs l) = true
  | [] => rfl
  | c :: cs => by
    have ih := dropTrailingWs_lastOk cs
    cases hr : dropTrailingWs cs with
    | nil =>
      rw [dropTrailingWs, hr]
      cases hw : isPyWs c
      · simp only [Bool.false_eq_true, if_false, lastOk, List.getLast?_singleton]
        simp [hw]
      · simp only [if_true]
        rfl
    | cons e es =>
      rw [dropTrailingWs, hr]
      rw [hr] at ih
      rw [lastOk, List.getLast?_cons_cons]
      rw [lastOk] at ih
      exact ih

theorem dropTrailingWs_headOk : ∀ l : Str, headOk l = true →
    headOk (dropTrailingWs l) = true
  | [], _ => rfl
  | c :: cs, h => by
    cases hr : dropTrailingWs cs with
    | nil =>
      rw [dropTrailingWs, hr]
      cases hw : isPyWs c
      · simp [headOk, hw] at h ⊢
      · rfl
    | cons e es =>
      rw [dropTrailingWs, hr]
      simp [headOk] at h ⊢
      exact h

theorem dropWhile_id_of_headOk (l : Str) (h : headOk l = true) :
    l.dropWhile isPyWs = l := by
  cases l with
  | nil => rfl
  | cons c cs =>
    rw [headOk, List.head?_cons] at h
    rw [List.dropWhile_cons]
    simp only [Bool.not_eq_true'] at h
    simp [h]

theorem dropTrailingWs_id_of_lastOk : ∀ l : Str, lastOk l = true →
    dropTrailingWs l = l
  | [], _ => rfl
  | [c], h => by
    rw [lastOk, List.getLast?_singleton] at h
    rw [dropTrailingWs]
    simp only [dropTrailingWs]
    simp only [Bool.not_eq_true'] at h
    simp [h]
  | c :: d :: ds, h => by
    have htail : lastOk (d :: ds) = true := by
      rw [lastOk, List.getLast?_cons_cons] at h
      exact h
    have ih := dropTrailingWs_id_of_lastOk (d :: ds) htail
    rw [dropTrailingWs, ih]

theorem collapseBlanks_id : ∀ l : Str, spacesOnly l = true → noDoubleBlank l = true →
    collapseBlanks l = l
  | [], _, _ => rfl
  | [c], hs, _ => by
    cases hb : isBlank c
    · simp [collapseBlanks, hb]
    · have : c = ' ' := by
        simp only [spacesOnly, List.all_cons, Bool.and_eq_true] at hs
        have := hs.1
        rw [hb] at this
        simpa using this
      simp [collapseBlanks, hb, this]
  | c :: d :: cs, hs, hd => by
    have hstail : spacesOnly (d :: cs) = true := by
      simp only [spacesOnly, List.all_cons, Bool.and_eq_true] at hs ⊢
      exact hs.2
    have ih := collapseBlanks_id (d :: cs) hstail (noDoubleBlank_tail hd)
    cases hb : isBlank c
    · rw [collapseBlanks, if_neg (by simp [hb]), ih]
    · have hce : c = ' ' := by
        simp only [spacesOnly, List.all_cons, Bool.and_eq_true] at hs
        have := hs.1
        rw [hb] at this
        simpa using this
      have hdb : isBlank d = false := by
        rw [noDoubleBlank] at hd
        have := (Bool.and_eq_true .. |>.mp hd).1
        rw [hb] at this
        simpa using this
      rw [collapseBlanks, if_pos hb, if_neg (by simp [hdb]), ih, hce]

/-! ### Assembly: the normalizer reaches a fixpoint after two applications -/

theorem pyStripL_headOk (l : Str) : headOk (pyStripL l) = true :=
  dropTrailingWs_headOk _ (dropWhile_headOk l)

theorem pyStripL_lastOk (l : Str) : lastOk (pyStripL l) = true :=
  dropTrailingWs_lastOk _

theorem pyStripL_noDouble (l : Str) (h : noDoubleBlank l = true) :
    noDoubleBlank (pyStripL l) = true := by
  obtain ⟨t, ht⟩ := dropTrailingWs_decomp (l.dropWhile isPyWs)
  exact noDoubleBlank_append_left _ t
    (by rw [pyStripL, ← ht]; exact noDoubleBlank_dropWhile _ l h)

theorem pyStripL_noSpace (l : Str) (h : noSpaceNL l = true) :
    noSpaceNL (pyStripL l) = true := by
  obtain ⟨t, ht⟩ := dropTrailingWs_decomp (l.dropWhile isPyWs)
  exact noSpaceNL_append_left _ t
    (by rw [pyStripL, ← ht]; exact noSpaceNL_dropWhile _ l h)

theorem pyStripL_spacesOnly (l : Str) (h : spacesOnly l = true) :
    spacesOnly (pyStripL l) = true := by
  obtain ⟨t, ht⟩ := dropTrailingWs_decomp (l.dropWhile isPyWs)
  exact spacesOnly_append_left _ t
    (by rw [pyStripL, ← ht]; exact spacesOnly_dropWhile _ l h)

theorem pyStripL_id (l : Str) (h1 : headOk l = true) (h2 : lastOk l = true) :
    pyStripL l = l := by
  rw [pyStripL, dropWhile_id_of_headOk l h1, dropTrailingWs_id_of_lastOk l h2]

/-- After one pass of the normalizer: blanks are single spaces, no space
touches a newline, and the ends are trimmed. -/
theorem normalized_props (s : Str) :
    spacesOnly (normalizeWhitespace s) = true ∧
    noDoubleBlank (normalizeWhitespace s) = true ∧
    noSpaceNL (normalizeWhitespace s) = true ∧
    headOk (normalizeWhitespace s) = true ∧
    lastOk (normalizeWhitespace s) = true := by
  obtain ⟨ha1, ha2⟩ := collapseBlanks_props s
  refine ⟨?_, ?_, ?_, pyStripL_headOk _, pyStripL_lastOk _⟩
  · exact pyStripL_spacesOnly _
      (stripSpacesNL_spacesOnly _ _ (collapseNewlines_spacesOnly _ ha1))
  · exact pyStripL_noDouble _
      (stripSpacesNL_noDouble _ _ (collapseNewlines_noDouble _ ha2))
  · exact pyStripL_noSpace _ (stripSpacesNL_noSpace _ _)

/-- On text satisfying all the invariants the normalizer is the identity. -/
theorem normalizeWhitespace_id (l : Str)
    (h1 : spacesOnly l = true) (h2 : noDoubleBlank l = true)
    (h3 : noSpaceNL l = true) (h4 : noTripleNL l = true)
    (h5 : headOk l = true) (h6 : lastOk l = true) :
    normalizeWhitespace l = l := by
  rw [normalizeWhitespace, collapseBlanks_id l h1 h2, collapseNewlines_id l h4,
    stripSpacesNL_id false l h3 (by simp), pyStripL_id l h5 h6]

/-- The second pass only collapses the newline runs the first pass left. -/
theorem normalizeWhitespace_twice (s : Str) :
    normalizeWhitespace (normalizeWhitespace s) =
      collapseNewlines (normalizeWhitespace s) := by
  obtain ⟨p1, p2, p3, p4, p5⟩ := normalized_props s
  conv_lhs => rw [normalizeWhitespace]
  rw [collapseBlanks_id _ p1 p2,
    stripSpacesNL_id false _ (collapseNewlines_noSpace _ p3) (by simp),
    pyStripL_id _ (collapseNewlines_headOk _ p4) (collapseNewlines_lastOk _ p5)]

/-- C1 counterexample: `normalize_whitespace` is not idempotent.  On
`"a\n \n \nb"` the first application leaves three consecutive newlines
(created by the space-stripping substitution after the newline-collapsing
substitution has already run), which a second application then collapses. -/
theorem c1_normalize_not_idempotent :
    normalizeWhitespace (normalizeWhitespace (str ("a\n \n \nb"))) ≠
      normalizeWhitespace (str ("a\n \n \nb")) := by decide

/-- C1 (amended): one application of the Text Normalizer need not be a
fixpoint, but two applications always are: for every input `t`,
`normalize_whitespace` applied three times equals it applied twice.  The
single-application claim fails only because stripping spaces around newlines
(step three) can merge newline runs into runs of three or more after the
newline-collapsing step (step two) has already run. -/
theorem c1_normalize_twice_idempotent (t : Str) :
    normalizeWhitespace (normalizeWhitespace (normalizeWhitespace t)) =
      normalizeWhitespace (normalizeWhitespace t) := by
  obtain ⟨p1, p2, p3, p4, p5⟩ := normalized_props t
  rw [normalizeWhitespace_twice t]
  exact normalizeWhitespace_id _
    (collapseNewlines_spacesOnly _ p1)
    (collapseNewlines_noDouble _ p2)
    (collapseNewlines_noSpace _ p3)
    (collapseNewlines_noTriple _)
    (collapseNewlines_headOk _ p4)
    (collapseNewlines_lastOk _ p5)

/-! ### Line splitting and joining, and the empty-section pass -/

/-- Python `text.split` on a newline: `n` newlines yield `n + 1` parts. -/
def splitNlS : Str → List Str
  | [] => [[]]
  | c :: cs =>
    if c = '\n' then [] :: splitNlS cs
    else
      match splitNlS cs with
      | l :: ls => (c :: l) :: ls
      | [] => [[c]]

/-- Python `'\n'.join`. -/
def joinNlS : List Str → Str
  | [] => []
  | [s] => s
  | s :: rest => s ++ '\n' :: joinNlS rest

/-- A line whose `strip()` is empty (the `not lines[j].strip()` test). -/
def isBlankLine (l : Str) : Bool := pyStripL l == []

/-- A line whose `strip()` starts with a hash (the
`line.strip().startswith('#')` test). -/
def isHeadingLine (l : Str) : Bool :=
  match pyStripL l with
  | '#' :: _ => true
  | _ => false

/-- The first non-blank line of a list of lines, if any (the inner
look-ahead loop of `remove_empty_sections`). -/
def firstNonBlank (ls : List Str) : Option Str := ls.find? (fun l => !isBlankLine l)

/-- After the look-ahead: end of text was reached, or the next non-blank
line is itself a heading. -/
def nextEndOrHeading (ls : List Str) : Bool :=
  match firstNonBlank ls with
  | none => true
  | some l => isHeadingLine l

/-- The line scan of `remove_empty_sections`: a heading line is skipped when
the look-ahead reports end-of-text or another heading; every other line is
copied and the scan continues with the next line. -/
def removeEmptySectionsL : List Str → List Str
  | [] => []
  | l :: ls =>
    if isHeadingLine l && nextEndOrHeading ls then removeEmptySectionsL ls
    else l :: removeEmptySectionsL ls

/-- `remove_empty_sections` from `clean.py`. -/
def removeEmptySections (t : Str) : Str := joinNlS (removeEmptySectionsL (splitNlS t))

/-- Index-based characterisation written from the spec's words: line `i` is
kept exactly when it is not a heading whose next non-blank line (searched in
the lines after position `i`) is missing or is another heading. -/
def removeEmptySectionsSpecL (lines : List Str) : List Str :=
  (List.range lines.length).filterMap fun i =>
    match lines[i]? with
    | some l =>
      if isHeadingLine l && nextEndOrHeading (lines.drop (i + 1)) then none
      else some l
    | none => none

/-- Shift lemma: the per-index characterisation unfolds one line at a time. -/
theorem removeEmptySectionsSpecL_cons (l : Str) (ls : List Str) :
    removeEmptySectionsSpecL (l :: ls) =
      (if isHeadingLine l && nextEndOrHeading ls then ([] : List Str) else [l]) ++
        removeEmptySectionsSpecL ls := by
  rw [removeEmptySectionsSpecL, removeEmptySectionsSpecL, List.length_cons,
    List.range_succ_eq_map, List.filterMap_cons, List.filterMap_map]
  have htail : List.filterMap
      ((fun i : Nat =>
        match (l :: ls)[i]? with
        | some x =>
          if isHeadingLine x && nextEndOrHeading ((l :: ls).drop (i + 1)) then none
          else some x
        | none => none) ∘ Nat.succ) (List.range ls.length) =
      List.filterMap
      (fun i : Nat =>
        match ls[i]? with
        | some x =>
          if isHeadingLine x && nextEndOrHeading (ls.drop (i + 1)) then none
          else some x
        | none => none) (List.range ls.length) := by
    apply List.filterMap_congr
    intro i _
    simp only [Function.comp_apply, List.getElem?_cons_succ, List.drop_succ_cons]
  rw [htail]
  cases hk : (isHeadingLine l && nextEndOrHeading ls)
  · simp [hk]
  · simp [hk]

/-- C7: a heading line is dropped by the empty-section pass if and only if
the next non-blank line after it is end-of-text or another heading line: the
line scan agrees with the per-index characterisation on every input. -/
theorem c7_empty_section_drop_characterisation (lines : List Str) :
    removeEmptySectionsL lines = removeEmptySectionsSpecL lines := by
  induction lines with
  | nil => rfl
  | cons l ls ih =>
    rw [removeEmptySectionsL, removeEmptySectionsSpecL_cons, ih]
    cases hk : (isHeadingLine l && nextEndOrHeading ls)
    · simp [hk]
    · simp [hk]

theorem removeEmptySectionsL_sublist_keep (lines : List Str) :
    List.Sublist (removeEmptySectionsL lines) lines ∧
      (removeEmptySectionsL lines).filter (fun l => !isHeadingLine l) =
        lines.filter (fun l => !isHeadingLine l) := by
  induction lines with
  | nil => exact ⟨List.Sublist.refl _, rfl⟩
  | cons l ls ih =>
    rw [removeEmptySectionsL]
    cases hk : (isHeadingLine l && nextEndOrHeading ls)
    · simp only [hk, Bool.false_eq_true, if_false]
      refine ⟨List.Sublist.cons₂ _ ih.1, ?_⟩
      rw [List.filter_cons, List.filter_cons]
      cases hh : (!isHeadingLine l)
      · simp only [hh, Bool.false_eq_true, if_false]
        exact ih.2
      · simp only [hh, if_true]
        rw [ih.2]
    · simp only [hk, if_true]
      have hl : isHeadingLine l = true := (Bool.and_eq_true .. |>.mp hk).1
      refine ⟨List.Sublist.cons _ ih.1, ?_⟩
      rw [List.filter_cons]
      simp only [hl, Bool.not_true, Bool.false_eq_true, if_false]
      exact ih.2

/-- C10: on every input text, the empty-section pass only ever deletes
heading lines: the output line sequence is a subsequence of the input line
sequence, and the lines whose stripped content does not start with a hash
survive unchanged and in their original relative order. -/
theorem c10_empty_sections_only_delete_headings (t : Str) :
    List.Sublist (removeEmptySectionsL (splitNlS t)) (splitNlS t) ∧
      (removeEmptySectionsL (splitNlS t)).filter (fun l => !isHeadingLine l) =
        (splitNlS t).filter (fun l => !isHeadingLine l) :=
  removeEmptySectionsL_sublist_keep (splitNlS t)

/-! ### The document tree

BeautifulSoup's mutable tree is modelled as a pure inductive type.  The
program only ever consults the tag name, the (multi-valued) `class`
attribute and the `id` attribute, so those are the element fields kept;
in-place mutation (`decompose`, `unwrap`, `replace_with`) becomes tree
rebuilding.  A document is the forest of top-level nodes. -/

inductive Node where
  | element (tag : Str) (classes : List Str) (idAttr : Option Str) (children : List Node)
  | text (s : Str)
  | comment (s : Str)

/-- Substring test (Python's `in` on strings): does `pat` occur inside `s`? -/
def startsWithS : Str → Str → Bool
  | [], _ => true
  | _ :: _, [] => false
  | p :: ps, c :: cs => p == c && startsWithS ps cs

def containsS (pat : Str) : Str → Bool
  | [] => pat == []
  | c :: cs => startsWithS pat (c :: cs) || containsS pat cs

/-- Python `str.lower()`, ASCII letters only. -/
def toLowerS (s : Str) : Str := s.map Char.toLower

/-- Python `' '.join`. -/
def joinSpace : List Str → Str
  | [] => []
  | [s] => s
  | s :: rest => s ++ ' ' :: joinSpace rest

mutual
/-- `get_text()` with the default empty separator: concatenate the text
descendants in document order (comments are not text). -/
def getTextN : Node → Str
  | .element _ _ _ cs => getTextF cs
  | .text s => s
  | .comment _ => []
def getTextF : List Node → Str
  | [] => []
  | n :: rest => getTextN n ++ getTextF rest
end

mutual
/-- `get_text(strip=True)`: each text descendant is stripped before the
concatenation. -/
def getTextStripN : Node → Str
  | .element _ _ _ cs => getTextStripF cs
  | .text s => pyStripL s
  | .comment _ => []
def getTextStripF : List Node → Str
  | [] => []
  | n :: rest => getTextStripN n ++ getTextStripF rest
end

example : containsS (str ("b c")) (str ("a b cd")) = true := by decide
example : containsS (str ("bc")) (str ("a b cd")) = false := by decide

/-! ### Content Filter -/

/-- The fixed exclusion tag set of `remove_non_content_elements`. -/
def nonContentTags : List Str :=
  [str ("script"), str ("style"), str ("nav"), str ("footer"), str ("header"),
   str ("aside"), str ("table"), str ("noscript"), str ("iframe"), str ("button")]

mutual
/-- `remove_non_content_elements`: drop every element whose tag is excluded
(with its whole subtree, as `decompose` does) and every comment node. -/
def removeNonContentF : List Node → List Node
  | [] => []
  | n :: rest => removeNonContentN n ++ removeNonContentF rest
def removeNonContentN : Node → List Node
  | .element t c i cs =>
    if nonContentTags.contains t then [] else [.element t c i (removeNonContentF cs)]
  | .text s => [.text s]
  | .comment _ => []
end

/-- `ui_class_patterns` from `remove_ui_elements`. -/
def uiClassPats : List Str :=
  [str ("sidebar"), str ("toc"), str ("table-of-contents"), str ("breadcrumb"),
   str ("navigation"), str ("nav-"), str ("menu"), str ("search-box"),
   str ("search-form"), str ("search-input"), str ("searchbar"),
   str ("search-widget"), str ("skip-to"), str ("toolbar")]

/-- `ui_id_patterns` from `remove_ui_elements`. -/
def uiIdPats : List Str :=
  [str ("sidebar"), str ("toc"), str ("table-of-contents"), str ("navigation"),
   str ("breadcrumb"), str ("menu"), str ("search-box"), str ("search-form"),
   str ("search-input"), str ("searchbar")]

/-- `PROTECTED_CONTENT_TAGS`. -/
def protectedTags : List Str :=
  [str ("body"), str ("main"), str ("article"), str ("section")]

/-- The class-pattern test: a non-empty class list whose space-joined,
lowercased form contains one of the UI class patterns. -/
def classMatch (classes : List Str) : Bool :=
  !(classes == []) && uiClassPats.any (fun p => containsS p (toLowerS (joinSpace classes)))

/-- The id-pattern test: a non-empty id containing one of the UI id
patterns (lowercased). -/
def idMatch : Option Str → Bool
  | some i => !(i == []) && uiIdPats.any (fun p => containsS p (toLowerS i))
  | none => false

/-- Is the node an element that `remove_ui_elements` decomposes: it matches a
class or id pattern and its tag is not protected? -/
def uiDrop : Node → Bool
  | .element t cls idA _ => (classMatch cls || idMatch idA) && !(protectedTags.contains t)
  | _ => false

mutual
/-- `remove_ui_elements`.  The source first collects every element matching a
class pattern (in document order), then every element matching an id pattern,
and then decomposes each collected element unless its tag is protected or it
has already been detached with a decomposed ancestor.  Decomposing a node
whose ancestor is already gone is a no-op and an element is decomposed at
most once, so the net effect is: every element satisfying `uiDrop` whose
ancestors all fail `uiDrop` is removed with its subtree. -/
def removeUiF : List Node → List Node
  | [] => []
  | n :: rest => (if uiDrop n then [] else removeUiN n) ++ removeUiF rest
def removeUiN : Node → List Node
  | .element t c i cs => [.element t c i (removeUiF cs)]
  | n => [n]
end

mutual
/-- `remove_links`: unwrap every anchor, splicing its children (processed in
turn, since `find_all` also collects nested anchors) into the parent. -/
def removeLinksF : List Node → List Node
  | [] => []
  | n :: rest => removeLinksN n ++ removeLinksF rest
def removeLinksN : Node → List Node
  | .element t c i cs =>
    if t == str ("a") then removeLinksF cs else [.element t c i (removeLinksF cs)]
  | n => [n]
end

mutual
/-- `extract_title`: find the first `title` element in document order, return
its stripped text and remove it from the tree. -/
def extractTitleF : List Node → Option Str × List Node
  | [] => (none, [])
  | n :: rest =>
    match extractTitleN n with
    | (some t, n') => (some t, n' ++ rest)
    | (none, n') =>
      let r := extractTitleF rest
      (r.1, n' ++ r.2)
def extractTitleN : Node → Option Str × List Node
  | .element t c i cs =>
    if t == str ("title") then (some (getTextStripF cs), [])
    else
      let r := extractTitleF cs
      (r.1, [.element t c i r.2])
  | n => (none, [n])
end

/-! ### Structural Converter -/

mutual
def nodeCountN : Node → Nat
  | .element _ _ _ cs => 1 + nodeCountF cs
  | _ => 1
def nodeCountF : List Node → Nat
  | [] => 0
  | n :: rest => nodeCountN n + nodeCountF rest
end

/-- The inline tag list of `add_inline_spacing`. -/
def inlineTags : List Str :=
  [str ("code"), str ("strong"), str ("em"), str ("b"), str ("i"), str ("span")]

/-- `endswith((' ', '\n', '\t'))`. -/
def endsWithInlineWs (s : Str) : Bool :=
  match s.getLast? with
  | some c => c == ' ' || c == '\n' || c == '\t'
  | none => false

/-- `startswith((' ', '\n', '\t'))`. -/
def startsWithInlineWs (s : Str) : Bool :=
  match s.head? with
  | some c => c == ' ' || c == '\n' || c == '\t'
  | none => false

/-- One tag's pass of `add_inline_spacing`, as a left-to-right scan of a
sibling list.  `acc` holds the already-processed siblings in reverse, so its
head is the current previous sibling.  A matching element gets a space text
node inserted before it when the previous sibling is a non-empty text node
without trailing whitespace, a space after it when the next sibling is a
non-empty text node without leading whitespace, and is then unwrapped: its
children are spliced into the scan, so nested matching elements are
processed at their new position, exactly as the source's pre-computed
`find_all` list visits them after the outer unwrap.  The fuel only bounds
the number of scan steps: every step consumes one node of the scan list or
recurses into a strictly smaller child list, and a match adds at most two
space nodes, so `3 * nodeCountF + 3` is never exhausted. -/
def inlineGo (tg : Str) : Nat → List Node → List Node → List Node
  | 0, acc, rest => acc.reverse ++ rest
  | _ + 1, acc, [] => acc.reverse
  | fuel + 1, acc, n :: rest =>
    match n with
    | .element t c i cs =>
      if t == tg then
        let acc1 :=
          match acc with
          | .text s :: _ =>
            if !(s == []) && !endsWithInlineWs s then .text [' '] :: acc else acc
          | _ => acc
        let rest1 :=
          match rest with
          | .text s :: _ =>
            if !(s == []) && !startsWithInlineWs s then .text [' '] :: rest else rest
          | _ => rest
        inlineGo tg fuel acc1 (cs ++ rest1)
      else inlineGo tg fuel (.element t c i (inlineGo tg fuel [] cs) :: acc) rest
    | _ => inlineGo tg fuel (n :: acc) rest

/-- `add_inline_spacing`: the six tag passes in source order. -/
def addInlineSpacing (f : List Node) : List Node :=
  inlineTags.foldl (fun acc tg => inlineGo tg (3 * nodeCountF acc + 3) [] acc) f

mutual
/-- `convert_code_blocks`: replace each outermost `pre` with its raw text in
a fenced block (an inner `pre` is detached by the outer replacement and its
own replacement mutates only the detached subtree). -/
def convertCodeF : List Node → List Node
  | [] => []
  | n :: rest => convertCodeN n :: convertCodeF rest
def convertCodeN : Node → Node
  | .element t c i cs =>
    if t == str ("pre") then
      .text (str ("\n\n```\n") ++ getTextF cs ++ str ("\n```\n\n"))
    else .element t c i (convertCodeF cs)
  | n => n
end

def headingTag (lvl : Nat) : Str := 'h' :: str (toString lvl)

mutual
/-- One level's pass of `convert_headings`: a heading with stripped text gets
the hash-prefixed fragment with blank-line padding, an empty heading is
decomposed. -/
def convertHeadF (tg : Str) (lvl : Nat) : List Node → List Node
  | [] => []
  | n :: rest => convertHeadN tg lvl n ++ convertHeadF tg lvl rest
def convertHeadN (tg : Str) (lvl : Nat) : Node → List Node
  | .element t c i cs =>
    if t == tg then
      let txt := getTextStripF cs
      if txt == [] then []
      else [.text (str ("\n\n") ++ List.replicate lvl '#' ++ ' ' :: txt ++ str ("\n\n"))]
    else [.element t c i (convertHeadF tg lvl cs)]
  | n => [n]
end

/-- `convert_headings`: levels 1 to 6 in order. -/
def convertHeadings (f : List Node) : List Node :=
  (List.range 6).foldl (fun acc k => convertHeadF (headingTag (k + 1)) (k + 1) acc) f

/-- The direct-text parts of a list item (`convert_list_item`): a nested list
child is skipped, another element child contributes its stripped text
unconditionally, and a string child contributes its stripped text only when
non-empty. -/
def directParts : List Node → List Str
  | [] => []
  | .element t _ _ ccs :: rest =>
    if t == str ("ul") || t == str ("ol") then directParts rest
    else getTextStripF ccs :: directParts rest
  | .text s :: rest =>
    (let x := pyStripL s; if x == [] then [] else [x]) ++ directParts rest
  | .comment s :: rest =>
    (let x := pyStripL s; if x == [] then [] else [x]) ++ directParts rest

mutual
/-- `convert_list_item`: the item's own line (when it has direct text) at
`4 * indent_level` spaces of indentation, followed by the recursively
converted directly-nested unordered lists and then the directly-nested
ordered lists, joined with newlines. -/
def convertListItemN : Node → Nat → Bool → Nat → Str
  | .element _ _ _ cs, d, ord, idx =>
    let direct := pyStripL (joinSpace (directParts cs))
    let marker : Str := if ord then str (toString idx) ++ str (".") else str ("-")
    let firstLines : List Str :=
      if direct == [] then []
      else [List.replicate (4 * d) ' ' ++ marker ++ ' ' :: direct]
    joinNlS (firstLines ++ nestedUlLines cs d ++ nestedOlLines cs d)
  | _, _, _, _ => []
def nestedUlLines : List Node → Nat → List Str
  | [], _ => []
  | .element t _ _ ccs :: rest, d =>
    (if t == str ("ul") then liLinesUnordered ccs (d + 1) else []) ++ nestedUlLines rest d
  | _ :: rest, d => nestedUlLines rest d
def nestedOlLines : List Node → Nat → List Str
  | [], _ => []
  | .element t _ _ ccs :: rest, d =>
    (if t == str ("ol") then liLinesOrdered ccs (d + 1) 1 else []) ++ nestedOlLines rest d
  | _ :: rest, d => nestedOlLines rest d
/-- The direct `li` children of an unordered list, converted at the given
indent level; empty results are omitted. -/
def liLinesUnordered : List Node → Nat → List Str
  | [], _ => []
  | n :: rest, lvl =>
    (match n with
     | .element t _ _ _ =>
       if t == str ("li") then
         (let r := convertListItemN n lvl false 1; if r == [] then [] else [r])
       else []
     | _ => []) ++ liLinesUnordered rest lvl
/-- The direct `li` children of an ordered list, numbered from the given
index by their position among the `li` children; empty results are omitted
but still consume their index. -/
def liLinesOrdered : List Node → Nat → Nat → List Str
  | [], _, _ => []
  | n :: rest, lvl, idx =>
    match n with
    | .element t c i cs =>
      if t == str ("li") then
        (let r := convertListItemN (.element t c i cs) lvl true idx;
          if r == [] then [] else [r]) ++ liLinesOrdered rest lvl (idx + 1)
      else liLinesOrdered rest lvl idx
    | _ => liLinesOrdered rest lvl idx
end

mutual
/-- `convert_lists`: each top-level list element (one not nested in another
list) is replaced by its converted lines padded with single newlines, or
decomposed when no item produced a line; nested lists are reached only
through `convert_list_item`. -/
def convertListsF : List Node → List Node
  | [] => []
  | n :: rest => convertListsN n ++ convertListsF rest
def convertListsN : Node → List Node
  | .element t c i cs =>
    if t == str ("ul") then
      let ls := liLinesUnordered cs 0
      if ls == [] then [] else [.text ('\n' :: (joinNlS ls ++ ['\n']))]
    else if t == str ("ol") then
      let ls := liLinesOrdered cs 0 1
      if ls == [] then [] else [.text ('\n' :: (joinNlS ls ++ ['\n']))]
    else [.element t c i (convertListsF cs)]
  | n => [n]
end

/-- The block tag list of `add_block_spacing`. -/
def blockTags : List Str :=
  [str ("p"), str ("div"), str ("section"), str ("article"), str ("blockquote")]

mutual
/-- One tag's pass of `add_block_spacing`: each outermost matching element is
replaced by its text content padded with blank lines (an inner same-tag
element is detached by the outer replacement, so only the outermost one
contributes padding). -/
def blockPassF (tg : Str) : List Node → List Node
  | [] => []
  | n :: rest => blockPassN tg n :: blockPassF tg rest
def blockPassN (tg : Str) : Node → Node
  | .element t c i cs =>
    if t == tg then .text (str ("\n\n") ++ getTextF cs ++ str ("\n\n"))
    else .element t c i (blockPassF tg cs)
  | n => n
end

mutual
/-- The `br` step of `add_block_spacing`: each line break becomes a newline. -/
def brPassF : List Node → List Node
  | [] => []
  | n :: rest => brPassN n :: brPassF rest
def brPassN : Node → Node
  | .element t c i cs =>
    if t == str ("br") then .text ['\n'] else .element t c i (brPassF cs)
  | n => n
end

/-- `add_block_spacing`: the five block-tag passes in source order, then the
line-break pass. -/
def addBlockSpacing (f : List Node) : List Node :=
  brPassF (blockTags.foldl (fun acc tg => blockPassF tg acc) f)

/-! ### Post-Processor: feedback-pattern removal

Each fixed pattern of `remove_feedback_patterns` is translated into a
dedicated matcher: given the text at a candidate position it returns the
suffix after a match there, or `none`.  All patterns begin with a mandatory
non-empty literal, so a match always consumes at least one character.
Character classes are the ASCII readings of `\s` and `\w`. -/

def isWordChar (c : Char) : Bool := c.isAlpha || c.isDigit || c == '_'

/-- Case-insensitive literal match: returns the rest of the text. -/
def ciStrip : Str → Str → Option Str
  | [], s => some s
  | _ :: _, [] => none
  | p :: ps, c :: cs => if p.toLower == c.toLower then ciStrip ps cs else none

/-- `Was this page helpful\??\s*` (IGNORECASE): the literal, a greedy
optional question mark, then greedy whitespace. -/
def tryHelpful (s : Str) : Option Str :=
  match ciStrip (str ("was this page helpful")) s with
  | some r =>
    let r1 := match r with
      | '?' :: t => t
      | _ => r
    some (r1.dropWhile isPyWs)
  | none => none

/-- `\bYes\s*No\b` (IGNORECASE); `prevW` tells whether the character before
this position is a word character. -/
def tryYesNo (prevW : Bool) (s : Str) : Option Str :=
  if prevW then none
  else
    match ciStrip (str ("yes")) s with
    | some r =>
      match ciStrip (str ("no")) (r.dropWhile isPyWs) with
      | some r2 =>
        match r2 with
        | c :: _ => if isWordChar c then none else some r2
        | [] => some r2
      | none => none
    | none => none

/-- `YesNo\b` (IGNORECASE). -/
def tryYesNo2 (s : Str) : Option Str :=
  match ciStrip (str ("yesno")) s with
  | some r =>
    match r with
    | c :: _ => if isWordChar c then none else some r
    | [] => some r
  | none => none

/-- `.*`: everything up to (excluding) the next newline. -/
def dropRestOfLine (s : Str) : Str := s.dropWhile (fun c => !(c == '\n'))

/-- `<literal>.*` (IGNORECASE), used for the rate/feedback/edit patterns. -/
def tryLitLine (lit : Str) (s : Str) : Option Str :=
  match ciStrip lit s with
  | some r => some (dropRestOfLine r)
  | none => none

/-- `⌘[A-Z]` (IGNORECASE makes the class match both cases). -/
def tryCmdKey (s : Str) : Option Str :=
  match s with
  | c :: d :: rest => if c == '⌘' && d.isAlpha then some rest else none
  | _ => none

/-- One `re.sub(pattern, '', text)` pass: scan left to right, at each
position try the matcher; on a match continue after the matched region (the
replacement is empty, and boundaries are judged on the original characters,
so the word-state carried over is unchanged).  The fuel `length + 1` is
enough because every match consumes at least one character. -/
def reSubScan (tryPat : Bool → Str → Option Str) : Nat → Bool → Str → Str
  | 0, _, s => s
  | _ + 1, _, [] => []
  | fuel + 1, prevW, c :: cs =>
    match tryPat prevW (c :: cs) with
    | some rest => reSubScan tryPat fuel prevW rest
    | none => c :: reSubScan tryPat fuel (isWordChar c) cs

def feedbackMatchers : List (Bool → Str → Option Str) :=
  [fun _ s => tryHelpful s,
   tryYesNo,
   fun _ s => tryYesNo2 s,
   fun _ s => tryLitLine (str ("rate this page")) s,
   fun _ s => tryLitLine (str ("give feedback")) s,
   fun _ s => tryLitLine (str ("edit this page")) s,
   fun _ s => tryCmdKey s]

/-- `remove_feedback_patterns`: the seven substitutions in source order. -/
def removeFeedbackPatterns (t : Str) : Str :=
  feedbackMatchers.foldl (fun s f => reSubScan f (s.length + 1) false s) t

example :
    removeFeedbackPatterns (str ("x Was this page helpful? Yes No y")) =
      str ("x  y") := by decide

/-! ### Render-Need Detector -/

/-- `SPA_INDICATORS`. -/
def spaIndicators : List Str :=
  [str ("__sveltekit_"), str ("__NEXT_DATA__"), str ("__NUXT__"),
   str ("window.__remixContext"), str ("_app/immutable/"),
   str ("react-root"), str ("data-reactroot")]

def hasSpaIndicator (raw : Str) : Bool :=
  spaIndicators.any (fun p => containsS p raw)

mutual
/-- `soup.find(pred)`: first node satisfying the predicate in document
(pre-order) order. -/
def findFirstN (p : Node → Bool) : Node → Option Node
  | .element t c i cs =>
    if p (.element t c i cs) then some (.element t c i cs) else findFirstF p cs
  | n => if p n then some n else none
def findFirstF (p : Node → Bool) : List Node → Option Node
  | [] => none
  | n :: rest =>
    match findFirstN p n with
    | some r => some r
    | none => findFirstF p rest
end

def isTag (t : Str) : Node → Bool
  | .element tg _ _ _ => tg == t
  | _ => false

/-- The `class_` lambda of `detect_js_rendered_content`: a present, non-empty
class list whose space-joined lowercased form contains "main-content". -/
def classHasMainContent : Node → Bool
  | .element _ cls _ _ =>
    !(cls == []) && containsS (str ("main-content")) (toLowerS (joinSpace cls))
  | _ => false

/-- The `id` lambda: a present, non-empty id containing "content". -/
def idHasContent : Node → Bool
  | .element _ _ (some i) _ => !(i == []) && containsS (str ("content")) (toLowerS i)
  | _ => false

/-- The `or`-chain locating the main-content container. -/
def findContainer (soup : List Node) : Option Node :=
  match findFirstF (isTag (str ("main"))) soup with
  | some c => some c
  | none =>
    match findFirstF (isTag (str ("article"))) soup with
    | some c => some c
    | none =>
      match findFirstF classHasMainContent soup with
      | some c => some c
      | none => findFirstF idHasContent soup

mutual
/-- `container.find_all(['script', 'style'])` followed by `decompose`:
remove every script and style descendant. -/
def stripScriptsN : Node → Node
  | .element t c i cs => .element t c i (stripScriptsF cs)
  | n => n
def stripScriptsF : List Node → List Node
  | [] => []
  | n :: rest =>
    (match n with
     | .element t _ _ _ =>
       if t == str ("script") || t == str ("style") then []
       else [stripScriptsN n]
     | _ => [n]) ++ stripScriptsF rest
end

mutual
/-- Replace the first node satisfying the predicate (pre-order) by the image
under `f`; used to model the in-place `decompose` inside the located
container. -/
def replaceFirstN (p : Node → Bool) (f : Node → Node) : Node → Node × Bool
  | .element t c i cs =>
    if p (.element t c i cs) then (f (.element t c i cs), true)
    else
      let r := replaceFirstF p f cs
      (.element t c i r.1, r.2)
  | m => if p m then (f m, true) else (m, false)
def replaceFirstF (p : Node → Bool) (f : Node → Node) : List Node → List Node × Bool
  | [] => ([], false)
  | n :: rest =>
    let r := replaceFirstN p f n
    if r.2 then (r.1 :: rest, true)
    else
      let r2 := replaceFirstF p f rest
      (r.1 :: r2.1, r2.2)
end

/-- Mirror the mutation `detect_js_rendered_content` performs on the tree it
inspects: the scripts and styles inside the located container (and only
there) are decomposed, following the same `or`-chain priority. -/
def mutateContainer (soup : List Node) : List Node :=
  if (findFirstF (isTag (str ("main"))) soup).isSome then
    (replaceFirstF (isTag (str ("main"))) stripScriptsN soup).1
  else if (findFirstF (isTag (str ("article"))) soup).isSome then
    (replaceFirstF (isTag (str ("article"))) stripScriptsN soup).1
  else if (findFirstF classHasMainContent soup).isSome then
    (replaceFirstF classHasMainContent stripScriptsN soup).1
  else if (findFirstF idHasContent soup).isSome then
    (replaceFirstF idHasContent stripScriptsN soup).1
  else soup

/-- `spa_root_ids`. -/
def spaRootIds : List Str :=
  [str ("app"), str ("root"), str ("__next"), str ("scalar-api-reference"),
   str ("application")]

def hasId (i : Str) : Node → Bool
  | .element _ _ (some j) _ => j == i
  | _ => false

/-- The empty-placeholder check: some well-known SPA root id exists and has
no stripped text. -/
def spaRootCheck (soup : List Node) : Bool :=
  spaRootIds.any fun rid =>
    match findFirstF (hasId rid) soup with
    | some e => getTextStripN e == []
    | none => false

/-- `detect_js_rendered_content`.  Returns the boolean together with the
tree as left behind by the detector's in-place script/style removal (the
caller re-parses, so this tree is discarded). -/
def detectJsRenderedContent (soup : List Node) (raw : Str) : Bool × List Node :=
  if !hasSpaIndicator raw then (false, soup)
  else
    match findContainer soup with
    | some c =>
      let soup2 := mutateContainer soup
      if (getTextStripN (stripScriptsN c)).length < 100 then (true, soup2)
      else (spaRootCheck soup2, soup2)
    | none => (spaRootCheck soup, soup)

/-! ### The pipeline -/

/-- The `used_js_rendering` notice (step 14, first branch). -/
def noticeRendered : Str :=
  str ("> [This file is converted from HTML using headless browser rendering. Non-primary content has been removed while trying to preserve structure.]\n\n")

/-- The detector-fired-but-not-rendered notice (second branch). -/
def noticeWarn : Str :=
  str ("> [This file is converted from HTML. Non-primary content has been removed while trying to preserve structure.]\n>\n> **Warning: This page appears to use JavaScript rendering. The main content may be missing because a headless browser was not used before conversion.**\n\n")

/-- The plain notice (third branch). -/
def noticePlain : Str :=
  str ("> [This file is converted from HTML. Non-primary content has been removed while trying to preserve structure.]\n\n")

/-- Steps 1-13 of `html_to_markdown` on a freshly parsed tree: title
extraction, the filter passes, the converter passes, flattening and
normalisation, the post-processor, and the optional title heading.  Written
from the spec's stage list; it makes no use of the detector. -/
def conversionBody (parse : Str → List Node) (raw : Str) : Str :=
  let soup := parse raw
  let tr := extractTitleF soup
  let soup2 := removeNonContentF tr.2
  let soup3 := removeUiF soup2
  let soup4 := removeLinksF soup3
  let soup5 := addInlineSpacing soup4
  let soup6 := convertCodeF soup5
  let soup7 := convertHeadings soup6
  let soup8 := convertListsF soup7
  let soup9 := addBlockSpacing soup8
  let text := normalizeWhitespace (getTextF soup9)
  let text2 := removeFeedbackPatterns text
  let text3 := removeEmptySections text2
  let title := match tr.1 with
    | some t => t
    | none => []
  if !(title == []) then str ("# ") ++ title ++ str ("\n\n") ++ text3 else text3

/-- `html_to_markdown`.  The external parser is passed in as a function; the
source parses the raw markup, runs the detector on that first tree (which
the detector may mutate), re-parses to get a fresh tree, runs the pipeline
on it, and prepends the notice chosen from the provenance flag and the
detector result.  Returns `(markdown, is_js_rendered)`. -/
def htmlToMarkdown (parse : Str → List Node) (raw : Str)
    (usedJsRendering : Bool) : Str × Bool :=
  let soup := parse raw
  let isJs := (detectJsRenderedContent soup raw).1
  let soupFresh := parse raw
  let tr := extractTitleF soupFresh
  let soup2 := removeNonContentF tr.2
  let soup3 := removeUiF soup2
  let soup4 := removeLinksF soup3
  let soup5 := addInlineSpacing soup4
  let soup6 := convertCodeF soup5
  let soup7 := convertHeadings soup6
  let soup8 := convertListsF soup7
  let soup9 := addBlockSpacing soup8
  let text := normalizeWhitespace (getTextF soup9)
  let text2 := removeFeedbackPatterns text
  let text3 := removeEmptySections text2
  let title := match tr.1 with
    | some t => t
    | none => []
  let text4 :=
    if !(title == []) then str ("# ") ++ title ++ str ("\n\n") ++ text3 else text3
  let notice :=
    if usedJsRendering then noticeRendered
    else if isJs then noticeWarn
    else noticePlain
  (notice ++ text4, isJs)

/-- The C8 example document: `<p>A</p><strong>B</strong><p>C</p>`. -/
def inlineExampleTree : List Node :=
  [.element (str ("p")) [] none [.text (str ("A"))],
   .element (str ("strong")) [] none [.text (str ("B"))],
   .element (str ("p")) [] none [.text (str ("C"))]]

def inlineExampleRaw : Str := str ("<p>A</p><strong>B</strong><p>C</p>")

example :
    (htmlToMarkdown (fun _ => inlineExampleTree) inlineExampleRaw false).1 =
      noticePlain ++ str ("A\n\nB\n\nC") := by decide

/-- The C2 example document: `<pre>line1\n  line2</pre>`. -/
def preExampleTree : List Node :=
  [.element (str ("pre")) [] none [.text (str ("line1\n  line2"))]]

def preExampleRaw : Str := str ("<pre>line1\n  line2</pre>")

example :
    (htmlToMarkdown (fun _ => preExampleTree) preExampleRaw false).1 =
      noticePlain ++ str ("```\nline1\nline2\n```") := by decide

/-- C2: the preformatted block's internal whitespace is *not* preserved in
the final output.  The conversion pass itself wraps the raw text in a fence
verbatim (first conjunct), but `normalize_whitespace` then collapses the
run of spaces and strips spaces adjacent to newlines inside the fence, so
the two-space indent on `line2` is gone from the final markdown (second and
third conjuncts). -/
theorem c2_code_block_indent_lost :
    getTextF (convertCodeF preExampleTree) =
      str ("\n\n```\nline1\n  line2\n```\n\n") ∧
    (htmlToMarkdown (fun _ => preExampleTree) preExampleRaw false).1 =
      noticePlain ++ str ("```\nline1\nline2\n```") ∧
    containsS (str ("  line2"))
      ((htmlToMarkdown (fun _ => preExampleTree) preExampleRaw false).1) = false := by
  refine ⟨by decide, by decide, by decide⟩

/-- C8 counterexample: for `<p>A</p><strong>B</strong><p>C</p>` the output
does contain `B`, but not surrounded by single spaces — the siblings of the
`strong` element are elements, not text, so no spaces are inserted and `B`
ends up on its own paragraph line. -/
theorem c8_b_not_space_surrounded :
    containsS (str ("B"))
      ((htmlToMarkdown (fun _ => inlineExampleTree) inlineExampleRaw false).1) = true ∧
    containsS (str (" B "))
      ((htmlToMarkdown (fun _ => inlineExampleTree) inlineExampleRaw false).1) = false := by
  refine ⟨by decide, by decide⟩

/-- C8 (amended): for `<p>A</p><strong>B</strong><p>C</p>` the body is
exactly `A`, `B`, `C` as three paragraph-separated lines — `B` sits on its
own line rather than being surrounded by spaces, because the inline-spacing
pass inserts a space only when the adjacent sibling is a non-empty text
node without boundary whitespace (last conjunct shows the insertion for a
text sibling).  The concatenations `AB` and `BC` never occur. -/
theorem c8_inline_spacing :
    (htmlToMarkdown (fun _ => inlineExampleTree) inlineExampleRaw false).1 =
      noticePlain ++ str ("A\n\nB\n\nC") ∧
    containsS (str ("AB"))
      ((htmlToMarkdown (fun _ => inlineExampleTree) inlineExampleRaw false).1) = false ∧
    containsS (str ("BC"))
      ((htmlToMarkdown (fun _ => inlineExampleTree) inlineExampleRaw false).1) = false ∧
    getTextF (addInlineSpacing
      [.text (str ("A")), .element (str ("strong")) [] none [.text (str ("B"))]]) =
      str ("A B") := by
  refine ⟨by decide, by decide, by decide, by decide⟩

/-! ### Counting elements: the UI-removal guardrail -/

mutual
/-- Number of elements with the given tag in a tree. -/
def countTagN (t : Str) : Node → Nat
  | .element tg _ _ cs => (if tg == t then 1 else 0) + countTagF t cs
  | _ => 0
def countTagF (t : Str) : List Node → Nat
  | [] => 0
  | n :: rest => countTagN t n + countTagF t rest
end

mutual
/-- Number of elements with the given tag that are reachable without passing
through an element the UI pass decomposes: exactly the ones the pass can
keep. -/
def liveCountTagN (t : Str) : Node → Nat
  | .element tg c i cs =>
    if uiDrop (.element tg c i cs) then 0
    else (if tg == t then 1 else 0) + liveCountTagF t cs
  | _ => 0
def liveCountTagF (t : Str) : List Node → Nat
  | [] => 0
  | n :: rest => liveCountTagN t n + liveCountTagF t rest
end

theorem countTagF_append (t : Str) : ∀ a b : List Node,
    countTagF t (a ++ b) = countTagF t a + countTagF t b
  | [], b => by simp [countTagF]
  | n :: rest, b => by
    rw [List.cons_append, countTagF, countTagF, countTagF_append t rest b]
    omega

theorem uiDrop_liveCount_zero (t : Str) (n : Node) (h : uiDrop n = true) :
    liveCountTagN t n = 0 := by
  cases n with
  | element tg c i cs => rw [liveCountTagN, if_pos h]
  | text s => rfl
  | comment s => rfl

mutual
theorem countTag_removeUiF (t : Str) : ∀ ns : List Node,
    countTagF t (removeUiF ns) = liveCountTagF t ns
  | [] => rfl
  | n :: rest => by
    rw [removeUiF, countTagF_append, liveCountTagF, countTag_removeUiF t rest]
    cases hd : uiDrop n
    · rw [if_neg (by simp), countTag_removeUiN t n hd]
    · rw [if_pos rfl, uiDrop_liveCount_zero t n hd]
      rfl
theorem countTag_removeUiN (t : Str) : ∀ n : Node, uiDrop n = false →
    countTagF t (removeUiN n) = liveCountTagN t n
  | .element tg c i cs, h => by
    rw [removeUiN, countTagF, countTagF, countTagN, liveCountTagN, h,
      countTag_removeUiF t cs]
    simp
  | .text s, _ => rfl
  | .comment s, _ => rfl
end

/-- C6 counterexample: a `main` element nested inside a `div` with class
`sidebar` is removed by the UI pass together with the matching `div`, even
though `main` is a protected tag. -/
def sidebarExample : List Node :=
  [.element (str ("div")) [str ("sidebar")] none
    [.element (str ("main")) [] none [.text (str ("content"))]]]

theorem c6_protected_inside_chrome_removed :
    countTagF (str ("main")) sidebarExample = 1 ∧
    countTagF (str ("main")) (removeUiF sidebarExample) = 0 := by
  refine ⟨by decide, by decide⟩

/-- C6 (amended): the UI pattern-matching pass never decomposes a protected
element itself — for each protected tag, the elements surviving the pass are
exactly those not nested inside a removed (matching, non-protected)
subtree.  A protected element nested inside removed chrome still disappears
with its ancestor, which is what the counterexample exhibits. -/
theorem c6_protected_tags_survive (ns : List Node) :
    countTagF (str ("body")) (removeUiF ns) = liveCountTagF (str ("body")) ns ∧
    countTagF (str ("main")) (removeUiF ns) = liveCountTagF (str ("main")) ns ∧
    countTagF (str ("article")) (removeUiF ns) = liveCountTagF (str ("article")) ns ∧
    countTagF (str ("section")) (removeUiF ns) = liveCountTagF (str ("section")) ns :=
  ⟨countTag_removeUiF _ ns, countTag_removeUiF _ ns,
   countTag_removeUiF _ ns, countTag_removeUiF _ ns⟩

/-! ### Detector threshold and the notice structure -/

/-- Raw markup containing the SvelteKit build-path marker. -/
def spaMarkerRaw : Str := str ("_app/immutable/")

/-- A `main` element with 40 characters of visible text. -/
def mainExample40 : List Node :=
  [.element (str ("main")) [] none
    [.text (str ("Loading the application shell right now."))]]

/-- A `main` element with 500 characters of visible text. -/
def mainExample500 : List Node :=
  [.element (str ("main")) [] none [.text (List.replicate 500 'a')]]

/-- C4: whenever the raw markup contains a SPA framework marker and the
located main-content container has fewer than 100 characters of visible
text after its scripts and styles are discarded, the detector reports true;
and on the concrete document whose `main` holds 500 characters of visible
text (with the same marker) it reports false. -/
theorem c4_detector_threshold :
    (∀ (soup : List Node) (raw : Str) (c : Node),
      hasSpaIndicator raw = true →
      findContainer soup = some c →
      (getTextStripN (stripScriptsN c)).length < 100 →
      (detectJsRenderedContent soup raw).1 = true) ∧
    (detectJsRenderedContent mainExample500 spaMarkerRaw).1 = false := by
  constructor
  · intro soup raw c h1 h2 h3
    rw [detectJsRenderedContent, h1]
    simp only [Bool.not_true, Bool.false_eq_true, if_false, h2]
    rw [if_pos h3]
  · decide

/-- C4 witness: the 40-character example discharges the hypotheses of the
general threshold statement. -/
theorem c4_detector_threshold_witness :
    (detectJsRenderedContent mainExample40 spaMarkerRaw).1 = true :=
  c4_detector_threshold.1 mainExample40 spaMarkerRaw
    (.element (str ("main")) [] none
      [.text (str ("Loading the application shell right now."))])
    (by decide) rfl (by decide)

/-- C9: the conversion output is exactly the chosen notice followed by what
the filter, converter, normalizer and post-processor stages produce on a
fresh parse of the markup with no detector involvement: the detector's
inspection (including the script/style removal it performs inside the
candidate container of the first parse tree, which `html_to_markdown`
discards by re-parsing) contributes nothing but the boolean that selects
the notice text. -/
theorem c9_detector_never_alters_body (parse : Str → List Node) (raw : Str)
    (used : Bool) :
    (htmlToMarkdown parse raw used).1 =
      (if used then noticeRendered
       else if (detectJsRenderedContent (parse raw) raw).1 then noticeWarn
       else noticePlain) ++ conversionBody parse raw := rfl

/-- C5: the markdown returned by `html_to_markdown` begins with exactly one
provenance notice chosen from the three fixed variants according to the
provenance flag and the detector result, and the notice is followed by a
blank line and then the body (which `conversionBody` optionally prefixes
with a level-1 heading derived from the extracted title).  Each variant
ends with the blank-line separator and contains no earlier blank line, so
the notice is the whole prefix up to the first blank line; the warning
variant spans three blockquote lines. -/
theorem c5_notice_structure (parse : Str → List Node) (raw : Str) (used : Bool) :
    ((htmlToMarkdown parse raw used).1 =
      (if used then noticeRendered
       else if (htmlToMarkdown parse raw used).2 then noticeWarn
       else noticePlain) ++ conversionBody parse raw) ∧
    (∃ core, noticeRendered = core ++ str ("\n\n") ∧
      containsS (str ("\n\n")) core = false) ∧
    (∃ core, noticeWarn = core ++ str ("\n\n") ∧
      containsS (str ("\n\n")) core = false) ∧
    (∃ core, noticePlain = core ++ str ("\n\n") ∧
      containsS (str ("\n\n")) core = false) := by
  refine ⟨rfl, ⟨noticeRendered.dropLast.dropLast, by decide, by decide⟩,
    ⟨noticeWarn.dropLast.dropLast, by decide, by decide⟩,
    ⟨noticePlain.dropLast.dropLast, by decide, by decide⟩⟩

/-! ### List conversion: the nesting example and ordered numbering -/

/-- The spec's nested-list example: an unordered item `A` containing an
unordered item `B` containing an ordered list of two items. -/
def nestedListExample : List Node :=
  [.element (str ("ul")) [] none
    [.element (str ("li")) [] none
      [.text (str ("A")),
       .element (str ("ul")) [] none
         [.element (str ("li")) [] none
           [.text (str ("B")),
            .element (str ("ol")) [] none
              [.element (str ("li")) [] none [.text (str ("C-item1"))],
               .element (str ("li")) [] none [.text (str ("C-item2"))]]]]]]]

/-- Two sibling ordered lists: numbering must restart at 1 for the second. -/
def twoOlExample : List Node :=
  [.element (str ("ol")) [] none
     [.element (str ("li")) [] none [.text (str ("a1"))],
      .element (str ("li")) [] none [.text (str ("a2"))]],
   .element (str ("ol")) [] none
     [.element (str ("li")) [] none [.text (str ("b1"))]]]

example :
    getTextF (convertListsF nestedListExample) =
      str ("\n- A\n    - B\n        1. C-item1\n        2. C-item2\n") := by decide

example :
    getTextF (convertListsF twoOlExample) =
      str ("\n1. a1\n2. a2\n\n1. b1\n") := by decide

/-- A single list item holding the text `x`. -/
def liX : Node := .element (str ("li")) [] none [.text (str ("x"))]


theorem convertListItemN_liX (i : Nat) :
    convertListItemN liX 0 true i = str (toString i) ++ str (". x") := by
  have h1 : pyStripL (joinSpace (directParts [Node.text (str ("x"))])) = str ("x") := by
    decide
  have h2 : nestedUlLines [Node.text (str ("x"))] 0 = [] := by decide
  have h3 : nestedOlLines [Node.text (str ("x"))] 0 = [] := by decide
  have h4 : (str ("x") == ([] : Str)) = false := by decide
  rw [liX, convertListItemN]
  simp only [h1, h2, h3, h4, if_true, Bool.false_eq_true, if_false, List.append_nil,
    List.replicate, List.nil_append, joinNlS]
  simp only [List.append_assoc]
  congr 1

theorem liLinesOrdered_replicate : ∀ n i : Nat,
    liLinesOrdered (List.replicate n liX) 0 i =
      (List.range n).map (fun k => str (toString (i + k)) ++ str (". x"))
  | 0, _ => rfl
  | n + 1, i => by
    have hitem := convertListItemN_liX i
    rw [liX] at hitem
    have hne : ((str (toString i) ++ str (". x")) == ([] : Str)) = false := by
      rw [beq_eq_false_iff_ne]
      simp only [ne_eq, List.append_eq_nil, not_and]
      exact fun _ => by decide
    have ih := liLinesOrdered_replicate n (i + 1)
    rw [List.replicate_succ, List.range_succ_eq_map, List.map_cons, List.map_map]
    rw [liX, liLinesOrdered]
    simp only [if_pos (by decide : (str ("li") == str ("li")) = true)]
    simp only [hitem, hne, Bool.false_eq_true, if_false, List.singleton_append]
    rw [← liX, ih, Nat.add_zero]
    congr 1
    apply List.map_congr_left
    intro k _
    have harith : i + 1 + k = i + Nat.succ k := by omega
    simp only [Function.comp_apply, harith]

/-! ### List conversion: indentation by nesting depth -/

/-- No newline occurs in the string. -/
def noNL (s : Str) : Bool := s.all (fun c => !(c == '\n'))

/-- Every line of the string starts with `4 * d` spaces. -/
def allLinesIndented (d : Nat) (s : Str) : Bool :=
  (splitNlS s).all (fun l => startsWithS (List.replicate (4 * d) ' ') l)

mutual
/-- Some text or comment payload in the subtree contains a newline (the one
situation in which a rendered item line can itself span several output
lines). -/
def hasNLTextN : Node → Bool
  | .element _ _ _ cs => hasNLTextF cs
  | .text s => !(noNL s)
  | .comment s => !(noNL s)
def hasNLTextF : List Node → Bool
  | [] => false
  | n :: rest => hasNLTextN n || hasNLTextF rest
end

theorem startsWithS_append_self : ∀ p t : Str, startsWithS p (p ++ t) = true
  | [], _ => rfl
  | c :: cs, t => by
    rw [List.cons_append, startsWithS]
    simp [startsWithS_append_self cs t]

theorem startsWithS_weaken : ∀ a b l : Str,
    startsWithS (a ++ b) l = true → startsWithS a l = true
  | [], _, _, _ => rfl
  | _ :: _, _, [], h => by rw [List.cons_append, startsWithS] at h; exact absurd h (by simp)
  | a :: as, b, c :: cs, h => by
    rw [List.cons_append, startsWithS] at h
    rw [startsWithS]
    obtain ⟨h1, h2⟩ := Bool.and_eq_true .. |>.mp h
    simp [h1, startsWithS_weaken as b cs h2]

theorem allLinesIndented_weaken (d : Nat) (s : Str)
    (h : allLinesIndented (d + 1) s = true) : allLinesIndented d s = true := by
  rw [allLinesIndented, List.all_eq_true] at h ⊢
  intro l hl
  have := h l hl
  apply startsWithS_weaken _ (List.replicate 4 ' ')
  rw [← List.replicate_add]
  have harith : 4 * d + 4 = 4 * (d + 1) := by omega
  rw [harith]
  exact this

theorem splitNlS_ne_nil : ∀ s : Str, ∃ l ls, splitNlS s = l :: ls
  | [] => ⟨[], [], rfl⟩
  | c :: cs => by
    obtain ⟨l, ls, h⟩ := splitNlS_ne_nil cs
    cases hc : (c = '\n' : Bool)
    · exact ⟨c :: l, ls, by rw [splitNlS, if_neg (by simpa using hc), h]⟩
    · exact ⟨[], splitNlS cs, by rw [splitNlS, if_pos (by simpa using hc)]⟩

theorem splitNlS_cons_nl (cs : Str) : splitNlS ('\n' :: cs) = [] :: splitNlS cs := by
  simp [splitNlS]

theorem splitNlS_cons_other (c : Char) (cs : Str) (hc : ¬c = '\n') (l : Str)
    (ls : List Str) (h : splitNlS cs = l :: ls) :
    splitNlS (c :: cs) = (c :: l) :: ls := by
  rw [splitNlS, if_neg hc, h]

theorem splitNlS_append_nl : ∀ a b : Str,
    splitNlS (a ++ '\n' :: b) = splitNlS a ++ splitNlS b
  | [], b => by rw [List.nil_append, splitNlS_cons_nl]; rfl
  | c :: cs, b => by
    by_cases hc : c = '\n'
    · subst hc
      rw [List.cons_append, splitNlS_cons_nl, splitNlS_cons_nl,
        splitNlS_append_nl cs b, List.cons_append]
    · obtain ⟨l, ls, h⟩ := splitNlS_ne_nil cs
      have h2 : splitNlS (cs ++ '\n' :: b) = l :: (ls ++ splitNlS b) := by
        rw [splitNlS_append_nl cs b, h, List.cons_append]
      rw [List.cons_append, splitNlS_cons_other c _ hc _ _ h2,
        splitNlS_cons_other c _ hc _ _ h, List.cons_append]

theorem noNL_splitNl : ∀ s : Str, noNL s = true → splitNlS s = [s]
  | [], _ => rfl
  | c :: cs, h => by
    have hc : ¬(c = '\n') := by
      rw [noNL, List.all_cons, Bool.and_eq_true] at h
      simpa using h.1
    have hcs : noNL cs = true := by
      rw [noNL, List.all_cons, Bool.and_eq_true] at h
      exact h.2
    rw [splitNlS, if_neg hc, noNL_splitNl cs hcs]

theorem joinNl_allLines (d : Nat) : ∀ parts : List Str,
    (∀ p ∈ parts, allLinesIndented d p = true) → parts ≠ [] →
    allLinesIndented d (joinNlS parts) = true
  | [], _, hne => absurd rfl hne
  | [p], h, _ => by rw [joinNlS]; exact h p (by simp)
  | p :: q :: rest, h, _ => by
    have hj : joinNlS (p :: q :: rest) = p ++ '\n' :: joinNlS (q :: rest) := rfl
    rw [hj, allLinesIndented, splitNlS_append_nl, List.all_append]
    have h1 : allLinesIndented d p = true := h p (by simp)
    have h2 : allLinesIndented d (joinNlS (q :: rest)) = true :=
      joinNl_allLines d (q :: rest) (fun x hx => h x (List.mem_cons_of_mem p hx))
        (List.cons_ne_nil q rest)
    rw [allLinesIndented] at h1 h2
    simp [h1, h2]

theorem all_dropWhile (q p : Char → Bool) : ∀ l : Str,
    l.all q = true → (l.dropWhile p).all q = true
  | [], _ => rfl
  | c :: cs, h => by
    rw [List.all_cons, Bool.and_eq_true] at h
    rw [List.dropWhile_cons]
    cases hp : p c
    · simp only [Bool.false_eq_true, if_false, List.all_cons, Bool.and_eq_true]
      exact ⟨h.1, h.2⟩
    · simp only [if_true]
      exact all_dropWhile q p cs h.2

theorem all_dropTrailing (q : Char → Bool) (l : Str) (h : l.all q = true) :
    (dropTrailingWs l).all q = true := by
  obtain ⟨t, ht⟩ := dropTrailingWs_decomp l
  rw [ht, List.all_append, Bool.and_eq_true] at h
  exact h.1

theorem noNL_pyStrip (s : Str) (h : noNL s = true) : noNL (pyStripL s) = true :=
  all_dropTrailing _ _ (all_dropWhile _ _ s h)

theorem noNL_append (a b : Str) (ha : noNL a = true) (hb : noNL b = true) :
    noNL (a ++ b) = true := by
  rw [noNL, List.all_append, Bool.and_eq_true]
  exact ⟨ha, hb⟩

theorem noNL_joinSpace : ∀ parts : List Str,
    (∀ p ∈ parts, noNL p = true) → noNL (joinSpace parts) = true
  | [], _ => rfl
  | [p], h => h p (by simp)
  | p :: q :: rest, h => by
    have hj : joinSpace (p :: q :: rest) = p ++ ' ' :: joinSpace (q :: rest) := rfl
    rw [hj]
    refine noNL_append _ _ (h p (by simp)) ?_
    rw [noNL, List.all_cons, Bool.and_eq_true]
    exact ⟨by decide, noNL_joinSpace (q :: rest) (fun x hx => h x (List.mem_cons_of_mem p hx))⟩

mutual
theorem noNL_getTextStripN : ∀ n : Node, hasNLTextN n = false →
    noNL (getTextStripN n) = true
  | .element _ _ _ cs, h => noNL_getTextStripF cs h
  | .text s, h => by
    rw [hasNLTextN, Bool.not_eq_false'] at h
    exact noNL_pyStrip s h
  | .comment _, _ => rfl
theorem noNL_getTextStripF : ∀ ns : List Node, hasNLTextF ns = false →
    noNL (getTextStripF ns) = true
  | [], _ => rfl
  | n :: rest, h => by
    rw [hasNLTextF, Bool.or_eq_false_iff] at h
    rw [getTextStripF]
    exact noNL_append _ _ (noNL_getTextStripN n h.1) (noNL_getTextStripF rest h.2)
end

theorem noNL_directParts : ∀ cs : List Node, hasNLTextF cs = false →
    ∀ p ∈ directParts cs, noNL p = true
  | [], _, _, hp => absurd hp (by simp [directParts])
  | .element t c i ccs :: rest, h, p, hp => by
    rw [hasNLTextF, Bool.or_eq_false_iff] at h
    rw [directParts] at hp
    by_cases hl : (t == str ("ul") || t == str ("ol")) = true
    · rw [if_pos hl] at hp
      exact noNL_directParts rest h.2 p hp
    · rw [if_neg hl, List.mem_cons] at hp
      rcases hp with hp | hp
      · rw [hp]
        exact noNL_getTextStripF ccs h.1
      · exact noNL_directParts rest h.2 p hp
  | .text s :: rest, h, p, hp => by
    rw [hasNLTextF, Bool.or_eq_false_iff] at h
    have hs : noNL s = true := by
      have := h.1
      rw [hasNLTextN, Bool.not_eq_false'] at this
      exact this
    rw [directParts, List.mem_append] at hp
    rcases hp with hp | hp
    · have : p = pyStripL s := by
        by_cases he : (pyStripL s == ([] : Str)) = true
        · rw [if_pos he] at hp
          exact absurd hp (by simp)
        · rw [if_neg he, List.mem_singleton] at hp
          exact hp
      rw [this]
      exact noNL_pyStrip s hs
    · exact noNL_directParts rest h.2 p hp
  | .comment s :: rest, h, p, hp => by
    rw [hasNLTextF, Bool.or_eq_false_iff] at h
    have hs : noNL s = true := by
      have := h.1
      rw [hasNLTextN, Bool.not_eq_false'] at this
      exact this
    rw [directParts, List.mem_append] at hp
    rcases hp with hp | hp
    · have : p = pyStripL s := by
        by_cases he : (pyStripL s == ([] : Str)) = true
        · rw [if_pos he] at hp
          exact absurd hp (by simp)
        · rw [if_neg he, List.mem_singleton] at hp
          exact hp
      rw [this]
      exact noNL_pyStrip s hs
    · exact noNL_directParts rest h.2 p hp

theorem digitChar_lt10_ne_nl (m : Nat) (hm : m < 10) : ¬Nat.digitChar m = '\n' := by
  interval_cases m <;> decide

theorem toDigitsCore_noNL : ∀ (fuel n : Nat) (ds : Str),
    noNL ds = true → noNL (Nat.toDigitsCore 10 fuel n ds) = true
  | 0, _, _, h => h
  | fuel + 1, n, ds, h => by
    rw [Nat.toDigitsCore]
    have hd : noNL (Nat.digitChar (n % 10) :: ds) = true := by
      rw [noNL, List.all_cons, Bool.and_eq_true]
      refine ⟨?_, h⟩
      simpa using digitChar_lt10_ne_nl (n % 10) (Nat.mod_lt n (by decide))
    cases hz : (n / 10 == 0)
    · rw [if_neg (by simpa using hz)]
      exact toDigitsCore_noNL fuel (n / 10) _ hd
    · rw [if_pos (by simpa using hz)]
      exact hd

theorem noNL_natRepr (n : Nat) : noNL (str (toString n)) = true :=
  toDigitsCore_noNL (n + 1) n [] rfl

theorem noNL_replicate_space : ∀ k : Nat, noNL (List.replicate k ' ') = true
  | 0 => rfl
  | k + 1 => by
    rw [List.replicate_succ, noNL, List.all_cons, Bool.and_eq_true]
    exact ⟨by decide, noNL_replicate_space k⟩

theorem noNL_marker (o : Bool) (i : Nat) :
    noNL (if o then str (toString i) ++ str (".") else str ("-")) = true := by
  cases o
  · rw [if_neg (by simp)]
    decide
  · rw [if_pos rfl]
    exact noNL_append _ _ (noNL_natRepr i) (by decide)

mutual
theorem convertListItem_indent : ∀ (n : Node) (d : Nat) (o : Bool) (i : Nat),
    hasNLTextN n = true ∨ convertListItemN n d o i = [] ∨
      allLinesIndented d (convertListItemN n d o i) = true
  | .element t c idA cs, d, o, i => by
    cases hg : hasNLTextF cs
    · have hunfold : convertListItemN (.element t c idA cs) d o i =
          joinNlS ((if pyStripL (joinSpace (directParts cs)) == ([] : Str) then []
            else [List.replicate (4 * d) ' ' ++
              (if o then str (toString i) ++ str (".") else str ("-")) ++
              ' ' :: pyStripL (joinSpace (directParts cs))]) ++
            nestedUlLines cs d ++ nestedOlLines cs d) := rfl
      by_cases hp : ((if pyStripL (joinSpace (directParts cs)) == ([] : Str) then []
          else [List.replicate (4 * d) ' ' ++
            (if o then str (toString i) ++ str (".") else str ("-")) ++
            ' ' :: pyStripL (joinSpace (directParts cs))]) ++
          nestedUlLines cs d ++ nestedOlLines cs d) = []
      · refine Or.inr (Or.inl ?_)
        rw [hunfold, hp]
        rfl
      · refine Or.inr (Or.inr ?_)
        rw [hunfold]
        refine joinNl_allLines d _ ?_ hp
        intro p hmem
        rw [List.append_assoc, List.mem_append] at hmem
        rcases hmem with hmem | hmem
        · have hline : p = List.replicate (4 * d) ' ' ++
              (if o then str (toString i) ++ str (".") else str ("-")) ++
              ' ' :: pyStripL (joinSpace (directParts cs)) := by
            by_cases he : (pyStripL (joinSpace (directParts cs)) == ([] : Str)) = true
            · rw [if_pos he] at hmem
              exact absurd hmem (by simp)
            · rw [if_neg he, List.mem_singleton] at hmem
              exact hmem
          have hnoNL : noNL p = true := by
            rw [hline, List.append_assoc]
            refine noNL_append _ _ (noNL_replicate_space _) ?_
            refine noNL_append _ _ (noNL_marker o i) ?_
            rw [noNL, List.all_cons, Bool.and_eq_true]
            refine ⟨by decide, ?_⟩
            exact noNL_pyStrip _ (noNL_joinSpace _ (noNL_directParts cs hg))
          rw [allLinesIndented, noNL_splitNl p hnoNL, List.all_cons]
          have hstart : startsWithS (List.replicate (4 * d) ' ') p = true := by
            rw [hline, List.append_assoc]
            exact startsWithS_append_self _ _
          simp [hstart]
        · rw [List.mem_append] at hmem
          rcases hmem with hmem | hmem
          · rcases nestedUl_indent cs d with hbad | hok
            · rw [hbad] at hg; exact absurd hg (by simp)
            · exact allLinesIndented_weaken d p (hok p hmem)
          · rcases nestedOl_indent cs d with hbad | hok
            · rw [hbad] at hg; exact absurd hg (by simp)
            · exact allLinesIndented_weaken d p (hok p hmem)
    · exact Or.inl hg
  | .text s, d, o, i => Or.inr (Or.inl rfl)
  | .comment s, d, o, i => Or.inr (Or.inl rfl)
theorem nestedUl_indent : ∀ (cs : List Node) (d : Nat),
    hasNLTextF cs = true ∨
      ∀ p ∈ nestedUlLines cs d, allLinesIndented (d + 1) p = true
  | [], d => Or.inr (fun p hp => absurd hp (by simp [nestedUlLines]))
  | .element t c idA ccs :: rest, d => by
    cases hg : hasNLTextF (Node.element t c idA ccs :: rest)
    · rw [hasNLTextF, Bool.or_eq_false_iff] at hg
      refine Or.inr ?_
      intro p hp
      rw [nestedUlLines, List.mem_append] at hp
      rcases hp with hp | hp
      · by_cases hul : (t == str ("ul")) = true
        · rw [if_pos hul] at hp
          rcases liUnordered_indent ccs (d + 1) with hbad | hok
          · rw [hasNLTextN] at hg
            rw [hbad] at hg
            exact absurd hg.1 (by simp)
          · exact hok p hp
        · rw [if_neg hul] at hp
          exact absurd hp (by simp)
      · rcases nestedUl_indent rest d with hbad | hok
        · rw [hbad] at hg
          exact absurd hg.2 (by simp)
        · exact hok p hp
    · exact Or.inl rfl
  | .text s :: rest, d => by
    cases hg : hasNLTextF (Node.text s :: rest)
    · rw [hasNLTextF, Bool.or_eq_false_iff] at hg
      refine Or.inr ?_
      intro p hp
      have hNU : nestedUlLines (Node.text s :: rest) d = nestedUlLines rest d := rfl
      rw [hNU] at hp
      rcases nestedUl_indent rest d with hbad | hok
      · rw [hbad] at hg
        exact absurd hg.2 (by simp)
      · exact hok p hp
    · exact Or.inl rfl
  | .comment s :: rest, d => by
    cases hg : hasNLTextF (Node.comment s :: rest)
    · rw [hasNLTextF, Bool.or_eq_false_iff] at hg
      refine Or.inr ?_
      intro p hp
      have hNU : nestedUlLines (Node.comment s :: rest) d = nestedUlLines rest d := rfl
      rw [hNU] at hp
      rcases nestedUl_indent rest d with hbad | hok
      · rw [hbad] at hg
        exact absurd hg.2 (by simp)
      · exact hok p hp
    · exact Or.inl rfl
theorem nestedOl_indent : ∀ (cs : List Node) (d : Nat),
    hasNLTextF cs = true ∨
      ∀ p ∈ nestedOlLines cs d, allLinesIndented (d + 1) p = true
  | [], d => Or.inr (fun p hp => absurd hp (by simp [nestedOlLines]))
  | .element t c idA ccs :: rest, d => by
    cases hg : hasNLTextF (Node.element t c idA ccs :: rest)
    · rw [hasNLTextF, Bool.or_eq_false_iff] at hg
      refine Or.inr ?_
      intro p hp
      rw [nestedOlLines, List.mem_append] at hp
      rcases hp with hp | hp
      · by_cases hol : (t == str ("ol")) = true
        · rw [if_pos hol] at hp
          rcases liOrdered_indent ccs (d + 1) 1 with hbad | hok
          · rw [hasNLTextN] at hg
            rw [hbad] at hg
            exact absurd hg.1 (by simp)
          · exact hok p hp
        · rw [if_neg hol] at hp
          exact absurd hp (by simp)
      · rcases nestedOl_indent rest d with hbad | hok
        · rw [hbad] at hg
          exact absurd hg.2 (by simp)
        · exact hok p hp
    · exact Or.inl rfl
  | .text s :: rest, d => by
    cases hg : hasNLTextF (Node.text s :: rest)
    · rw [hasNLTextF, Bool.or_eq_false_iff] at hg
      refine Or.inr ?_
      intro p hp
      have hNO : nestedOlLines (Node.text s :: rest) d = nestedOlLines rest d := rfl
      rw [hNO] at hp
      rcases nestedOl_indent rest d with hbad | hok
      · rw [hbad] at hg
        exact absurd hg.2 (by simp)
      · exact hok p hp
    · exact Or.inl rfl
  | .comment s :: rest, d => by
    cases hg : hasNLTextF (Node.comment s :: rest)
    · rw [hasNLTextF, Bool.or_eq_false_iff] at hg
      refine Or.inr ?_
      intro p hp
      have hNO : nestedOlLines (Node.comment s :: rest) d = nestedOlLines rest d := rfl
      rw [hNO] at hp
      rcases nestedOl_indent rest d with hbad | hok
      · rw [hbad] at hg
        exact absurd hg.2 (by simp)
      · exact hok p hp
    · exact Or.inl rfl
theorem liUnordered_indent : ∀ (ns : List Node) (lvl : Nat),
    hasNLTextF ns = true ∨
      ∀ p ∈ liLinesUnordered ns lvl, allLinesIndented lvl p = true
  | [], lvl => Or.inr (fun p hp => absurd hp (by simp [liLinesUnordered]))
  | .element t c idA ccs :: rest, lvl => by
    cases hg : hasNLTextF (Node.element t c idA ccs :: rest)
    · rw [hasNLTextF, Bool.or_eq_false_iff] at hg
      refine Or.inr ?_
      intro p hp
      have hLU : liLinesUnordered (Node.element t c idA ccs :: rest) lvl =
          (if t == str ("li") then
            (if convertListItemN (Node.element t c idA ccs) lvl false 1 == ([] : Str)
             then [] else [convertListItemN (Node.element t c idA ccs) lvl false 1])
           else []) ++ liLinesUnordered rest lvl := rfl
      rw [hLU, List.mem_append] at hp
      rcases hp with hp | hp
      · by_cases hli : (t == str ("li")) = true
        · rw [if_pos hli] at hp
          by_cases hre :
              (convertListItemN (.element t c idA ccs) lvl false 1 == ([] : Str)) = true
          · rw [if_pos hre] at hp
            exact absurd hp (by simp)
          · rw [if_neg hre, List.mem_singleton] at hp
            subst hp
            rcases convertListItem_indent (.element t c idA ccs) lvl false 1 with
              hbad | hnil | hok
            · rw [hbad] at hg
              exact absurd hg.1 (by simp)
            · rw [hnil] at hre
              simp at hre
            · exact hok
        · rw [if_neg hli] at hp
          exact absurd hp (by simp)
      · rcases liUnordered_indent rest lvl with hbad | hok
        · rw [hbad] at hg
          exact absurd hg.2 (by simp)
        · exact hok p hp
    · exact Or.inl rfl
  | .text s :: rest, lvl => by
    cases hg : hasNLTextF (Node.text s :: rest)
    · rw [hasNLTextF, Bool.or_eq_false_iff] at hg
      refine Or.inr ?_
      intro p hp
      have hLU : liLinesUnordered (Node.text s :: rest) lvl =
          liLinesUnordered rest lvl := rfl
      rw [hLU] at hp
      rcases liUnordered_indent rest lvl with hbad | hok
      · rw [hbad] at hg
        exact absurd hg.2 (by simp)
      · exact hok p hp
    · exact Or.inl rfl
  | .comment s :: rest, lvl => by
    cases hg : hasNLTextF (Node.comment s :: rest)
    · rw [hasNLTextF, Bool.or_eq_false_iff] at hg
      refine Or.inr ?_
      intro p hp
      have hLU : liLinesUnordered (Node.comment s :: rest) lvl =
          liLinesUnordered rest lvl := rfl
      rw [hLU] at hp
      rcases liUnordered_indent rest lvl with hbad | hok
      · rw [hbad] at hg
        exact absurd hg.2 (by simp)
      · exact hok p hp
    · exact Or.inl rfl
theorem liOrdered_indent : ∀ (ns : List Node) (lvl : Nat) (idx : Nat),
    hasNLTextF ns = true ∨
      ∀ p ∈ liLinesOrdered ns lvl idx, allLinesIndented lvl p = true
  | [], lvl, idx => Or.inr (fun p hp => absurd hp (by simp [liLinesOrdered]))
  | .element t c idA ccs :: rest, lvl, idx => by
    cases hg : hasNLTextF (Node.element t c idA ccs :: rest)
    · rw [hasNLTextF, Bool.or_eq_false_iff] at hg
      refine Or.inr ?_
      intro p hp
      by_cases hli : (t == str ("li")) = true
      · have hLO : liLinesOrdered (Node.element t c idA ccs :: rest) lvl idx =
            (if convertListItemN (Node.element t c idA ccs) lvl true idx == ([] : Str)
             then [] else [convertListItemN (Node.element t c idA ccs) lvl true idx]) ++
              liLinesOrdered rest lvl (idx + 1) := by
          rw [liLinesOrdered, if_pos hli]
        rw [hLO, List.mem_append] at hp
        rcases hp with hp | hp
        · by_cases hre :
              (convertListItemN (.element t c idA ccs) lvl true idx == ([] : Str)) = true
          · rw [if_pos hre] at hp
            exact absurd hp (by simp)
          · rw [if_neg hre, List.mem_singleton] at hp
            subst hp
            rcases convertListItem_indent (.element t c idA ccs) lvl true idx with
              hbad | hnil | hok
            · rw [hbad] at hg
              exact absurd hg.1 (by simp)
            · rw [hnil] at hre
              simp at hre
            · exact hok
        · rcases liOrdered_indent rest lvl (idx + 1) with hbad | hok
          · rw [hbad] at hg
            exact absurd hg.2 (by simp)
          · exact hok p hp
      · have hLO : liLinesOrdered (Node.element t c idA ccs :: rest) lvl idx =
            liLinesOrdered rest lvl idx := by
          rw [liLinesOrdered, if_neg hli]
        rw [hLO] at hp
        rcases liOrdered_indent rest lvl idx with hbad | hok
        · rw [hbad] at hg
          exact absurd hg.2 (by simp)
        · exact hok p hp
    · exact Or.inl rfl
  | .text s :: rest, lvl, idx => by
    cases hg : hasNLTextF (Node.text s :: rest)
    · rw [hasNLTextF, Bool.or_eq_false_iff] at hg
      refine Or.inr ?_
      intro p hp
      have hLO : liLinesOrdered (Node.text s :: rest) lvl idx =
          liLinesOrdered rest lvl idx := rfl
      rw [hLO] at hp
      rcases liOrdered_indent rest lvl idx with hbad | hok
      · rw [hbad] at hg
        exact absurd hg.2 (by simp)
      · exact hok p hp
    · exact Or.inl rfl
  | .comment s :: rest, lvl, idx => by
    cases hg : hasNLTextF (Node.comment s :: rest)
    · rw [hasNLTextF, Bool.or_eq_false_iff] at hg
      refine Or.inr ?_
      intro p hp
      have hLO : liLinesOrdered (Node.comment s :: rest) lvl idx =
          liLinesOrdered rest lvl idx := rfl
      rw [hLO] at hp
      rcases liOrdered_indent rest lvl idx with hbad | hok
      · rw [hbad] at hg
        exact absurd hg.2 (by simp)
      · exact hok p hp
    · exact Or.inl rfl
end

/-- C3: nested list conversion indents each nesting level by exactly four
spaces, renders directly-nested unordered lists with dash markers, and
numbers every ordered list from 1 by each item's position in its own list.
First two conjuncts: the spec's nested example renders as `- A`, `    - B`,
`        1. C-item1`, `        2. C-item2`, and two sibling ordered lists
both restart at 1 (no document-wide counter).  Third conjunct: an ordered
list of `n` items is numbered consecutively from the starting index (both
call sites pass 1) by position.  Fourth conjunct: whenever the item's text
payloads contain no newline (so that rendered lines are well defined), every
line produced for an item at depth `d` starts with `4 * d` spaces. -/
theorem c3_nested_list_conversion :
    (getTextF (convertListsF nestedListExample) =
      str ("\n- A\n    - B\n        1. C-item1\n        2. C-item2\n")) ∧
    (getTextF (convertListsF twoOlExample) = str ("\n1. a1\n2. a2\n\n1. b1\n")) ∧
    (∀ n i : Nat, liLinesOrdered (List.replicate n liX) 0 i =
      (List.range n).map (fun k => str (toString (i + k)) ++ str (". x"))) ∧
    (∀ (n : Node) (d : Nat) (o : Bool) (i : Nat),
      hasNLTextN n = true ∨ convertListItemN n d o i = [] ∨
        allLinesIndented d (convertListItemN n d o i) = true) :=
  ⟨by decide, by decide, liLinesOrdered_replicate, convertListItem_indent⟩
